import Mathlib

/-!
Verification of the w2a build engine against its specification.

Go strings are byte sequences; we model them as lists of natural numbers
(every byte < 256 at use sites).  All path functions (`filepath.Base`,
`filepath.Ext`, `strings.Contains`, `strings.ReplaceAll`, ...) are
translated byte for byte from the Go standard library semantics used by
the sources (Unix separator).  The SHA-256 based `hashShort` digest is a
pure function of its textual input; theorems about fingerprints
quantify over an arbitrary digest function so that every statement holds
for the real digest as a special case.
-/

deriving instance DecidableEq for Except

namespace W2A

/-- Go strings are UTF-8 byte sequences; a byte is a `Nat` below 256. -/
abbrev GoStr := List Nat

/-- UTF-8 encoding of one Unicode scalar value. -/
def utf8Bytes (c : Char) : List Nat :=
  let n := c.toNat
  if n < 128 then [n]
  else if n < 2048 then [192 + n / 64, 128 + n % 64]
  else if n < 65536 then [224 + n / 4096, 128 + (n / 64) % 64, 128 + n % 64]
  else [240 + n / 262144, 128 + (n / 4096) % 64, 128 + (n / 64) % 64, 128 + n % 64]

/-- The bytes of a Go string literal. -/
def gs (s : String) : GoStr := (s.data.map utf8Bytes).flatten

/-- `filepath.Separator` on Unix is the byte of the slash. -/
def sepByte : Nat := 47

/-- `strings.Contains(s, sub)`: `sub` occurs as a contiguous substring of `s`. -/
def goContains (s sub : GoStr) : Bool :=
  match s with
  | [] => sub.isPrefixOf ([] : GoStr)
  | c :: t => sub.isPrefixOf (c :: t) || goContains t sub

/-- Helper for `filepath.Base`: strip trailing separators. -/
def dropTrailingSeps (s : GoStr) : GoStr :=
  (s.reverse.dropWhile (fun b => b == sepByte)).reverse

/-- Helper for `filepath.Base`: the part after the last separator. -/
def lastElem (s : GoStr) : GoStr :=
  (s.reverse.takeWhile (fun b => b != sepByte)).reverse

/-- `filepath.Base` (Unix): strip trailing slashes, keep the last element;
the empty path gives `"."` and an all-slash path gives `"/"`. -/
def goBase (s : GoStr) : GoStr :=
  if s = [] then gs "."
  else if lastElem (dropTrailingSeps s) = [] then [sepByte]
  else lastElem (dropTrailingSeps s)

/-- `filepath.Ext`: the suffix starting at the final dot in the final
path element, empty when the final element has no dot. -/
def goExt (s : GoStr) : GoStr :=
  match (s.reverse.takeWhile (fun b => b != sepByte)).findIdx? (fun b => b == 46) with
  | none => []
  | some j => ((s.reverse.takeWhile (fun b => b != sepByte)).take (j + 1)).reverse

/-- `strings.TrimSuffix`. -/
def goTrimSuffix (s suf : GoStr) : GoStr :=
  if suf.isSuffixOf s then s.take (s.length - suf.length) else s

/-- The literal `<hash>` placeholder used by the command builder. -/
def hashTok : GoStr := gs "<hash>"

/-- Loop of `strings.ReplaceAll` for a non-empty pattern: scan left to
right replacing non-overlapping occurrences.  The loop consumes at least
one byte per step, so fuel equal to the length of the scanned string
makes the recursion total without changing the result. -/
def replLoop (old new : GoStr) : Nat → GoStr → GoStr
  | _, [] => []
  | 0, s => s
  | fuel + 1, c :: t =>
    if old.isPrefixOf (c :: t) ∧ old ≠ [] then
      new ++ replLoop old new fuel ((c :: t).drop old.length)
    else
      c :: replLoop old new fuel t

/-- `strings.ReplaceAll(s, old, new)`.  The sources only call it with the
non-empty literal `<hash>`, so the empty-pattern case (Go inserts `new`
between runes) is left as the identity. -/
def goReplaceAll (s old new : GoStr) : GoStr :=
  if old = [] then s else replLoop old new s.length s

/-!
## `internal/audio/cmd.go`

`hashShort` is SHA-256 over the seed string followed by a gob encoding of
the auxiliary values, hex encoded and truncated to seven characters.  It
is a pure function of its arguments; we model it as an arbitrary digest
function `HashFn` and, where a claim depends on the shape of its output,
record the shape (seven lowercase hexadecimal characters) as an explicit
hypothesis.
-/

/-- The type of the modelled `hashShort` digest: seed string and encoded
argument list to fingerprint. -/
abbrev HashFn := GoStr → List GoStr → GoStr

/-- `argsBasePath`: arguments containing the `<hash>` placeholder are
reduced to their extension; arguments containing a path separator are
reduced to their basename; other arguments are kept. -/
def argsBasePath (argsOrg : List GoStr) : List GoStr :=
  argsOrg.map fun a =>
    if goContains a hashTok then goExt a
    else if goContains a (gs "/") then goBase a
    else a

/-- `replaceHash`: compute the fingerprint of the command over
`argsBasePath` of the original arguments, then substitute it for the
`<hash>` placeholder in the first argument containing the placeholder.
`slices.IndexFunc` returns -1 when no argument contains the placeholder
and the subsequent index expression panics; the panic is modelled as
`none`. -/
def replaceHash (hashFn : HashFn) (cmdStr : GoStr) (argsOrig : List GoStr) :
    Option (List GoStr × GoStr × GoStr) :=
  let h := hashFn cmdStr (argsBasePath argsOrig)
  match argsOrig.findIdx? (fun arg => goContains arg hashTok) with
  | none => none
  | some idx =>
    let filePathReplaced := goReplaceAll (argsOrig.getD idx []) hashTok h
    some (argsOrig.set idx filePathReplaced, goBase filePathReplaced, h)

/-- The `cmd` node fields computed by `newCmd` (the stored context and
subprocess launcher carry no data relevant to the claims). -/
structure CmdNode where
  cmdStr : GoStr
  args : List GoStr
  outFile : GoStr
  hash : GoStr
deriving DecidableEq

/-- `newCmd` builds a `cmd` from `replaceHash`; it panics (`none`) when no
argument carries the placeholder. -/
def newCmd (hashFn : HashFn) (cmdStr : GoStr) (args : List GoStr) : Option CmdNode :=
  match replaceHash hashFn cmdStr args with
  | none => none
  | some (argsReplaced, outFile, h) =>
    some { cmdStr := cmdStr, args := argsReplaced, outFile := outFile, hash := h }

/-- `fileOperation` from `internal/audio/file_operation.go`, in iota
order; the sources compare operations by this order (`op >= skipped`). -/
inductive FileOperation where
  | opErr
  | noop
  | created
  | skipped
  | copied
deriving DecidableEq

/-- The iota value of a `fileOperation`. -/
def FileOperation.val : FileOperation → Nat
  | .opErr => 0
  | .noop => 1
  | .created => 2
  | .skipped => 3
  | .copied => 4

/-- The `copyWav` node built by `fileCacheBuilder.buildCopyWav`: its
destination (and output file) is the track name with a plain `.wav`
extension. -/
structure CopyWav where
  srcWavPath : GoStr
  dstWavPath : GoStr
deriving DecidableEq

/-- `buildCopyWav` constructs the `copyWav` node for a wav-format track. -/
def buildCopyWav (srcWavPath name : GoStr) : CopyWav :=
  { srcWavPath := srcWavPath, dstWavPath := name ++ gs ".wav" }

/-- `copyWav.outputFile` returns the destination path. -/
def CopyWav.outputFile (c : CopyWav) : GoStr := c.dstWavPath

/-!
## `internal/audio/file_creator.go` and `internal/audio/file_cache.go`

The existing-file index maps a fingerprint to the set of indexed paths
carrying it.  Go's `map[string]map[string]bool` is modelled as an
association list of buckets; iteration order over a Go map is arbitrary,
and every property proved below is order-independent (membership tests)
or explicitly about the arbitrary element the code picks.

Unicode NFC normalisation (`golang.org/x/text/unicode/norm`) is a pure
function of the string; theorems quantify over an arbitrary
normalisation function.
-/

/-- The index of existing files: buckets of paths keyed by fingerprint. -/
abbrev FileIndex := List (GoStr × List GoStr)

/-- `extractHash`: trim the extension and take the last seven bytes.  Go
slices the string as `str[len(str)-7:]`, which panics (`none`) when the
trimmed string is shorter than seven bytes. -/
def extractHash (filename : GoStr) : Option GoStr :=
  if 7 ≤ (goTrimSuffix filename (goExt filename)).length then
    some ((goTrimSuffix filename (goExt filename)).drop
      ((goTrimSuffix filename (goExt filename)).length - 7))
  else none

/-- Outcome of `useExistingFile`, with the source path recorded for the
copy case.  `panicked` models the index panic inside `extractHash`;
`copyFromEmpty` models the branch where the bucket is empty and
`copyFile` is called with an empty source path (an I/O error). -/
inductive CacheOutcome where
  | panicked
  | copyFromEmpty
  | skippedOut
  | copiedOut (src : GoStr)
  | createdOut
deriving DecidableEq

/-- All indexed paths of a `FileIndex` (union of all buckets). -/
def indexPaths (idx : FileIndex) : List GoStr := (idx.map Prod.snd).flatten

/-- Bucket lookup, modelling Go's map lookup (`paths, ok := m[hash]`). -/
def indexLookup (idx : FileIndex) (h : GoStr) : Option (List GoStr) :=
  match idx.find? (fun b => b.fst == h) with
  | none => none
  | some b => some b.snd

/-- `useExistingFile(existingFiles, n)`: first scan every indexed path and
return `skipped` when some path's basename, NFC-normalised, equals the
desired output file; otherwise extract the fingerprint from the desired
output file and, when it keys a bucket, copy an arbitrary element of the
bucket next to the desired name and return `copied`; otherwise return
`created`. -/
def useExistingFile (nfc : GoStr → GoStr) (idx : FileIndex) (outFile : GoStr) :
    CacheOutcome :=
  if (indexPaths idx).any (fun p => nfc (goBase p) == outFile) then
    .skippedOut
  else
    match extractHash outFile with
    | none => .panicked
    | some h =>
      match indexLookup idx h with
      | some paths =>
        match paths with
        | [] => .copyFromEmpty
        | p :: _ => .copiedOut p
      | none => .createdOut

/-- The filter of `listFilePaths`: entries whose name begins with a dot,
whose extension is `.m3u`, or whose joined path has the directory's own
basename are not indexed. -/
def listFilePaths (dir : GoStr) (names : List GoStr) : List GoStr :=
  (names.filter fun name =>
      !((name.take 1) == [46]) &&
      !(goBase (dir ++ gs "/" ++ name) == goBase dir) &&
      !(goExt name == gs ".m3u")).map
    fun name => dir ++ gs "/" ++ name

/-- Insert a path into its fingerprint bucket (the Go code creates the
bucket when absent and then adds the path). -/
def indexInsert (idx : FileIndex) (h p : GoStr) : FileIndex :=
  match idx.find? (fun b => b.fst == h) with
  | none => idx ++ [(h, [p])]
  | some _ => idx.map fun b => if b.fst == h then (b.fst, b.snd ++ [p]) else b

/-- `filePaths`: classify every listed file by the fingerprint extracted
from it.  A panic inside `extractHash` aborts the whole indexing
(`none`). -/
def filePaths (files : List GoStr) : Option FileIndex :=
  files.foldl
    (fun acc f =>
      match acc with
      | none => none
      | some idx =>
        match extractHash f with
        | none => none
        | some h => some (indexInsert idx h f))
    (some [])

/-!
## `internal/m3u/m3u.go`

`escape` decomposes the input to Unicode NFD and percent-encodes every
byte above 127 and every `%` byte.  NFD is a pure function of the
string; theorems quantify over an arbitrary decomposition function.
-/

/-- One uppercase hexadecimal digit (value below 16). -/
def upperHexDigit (d : Nat) : Nat := if d < 10 then 48 + d else 55 + d

/-- The bytes `fmt.Sprintf("%%%02X", b)` produces for a byte `b`:
a percent sign followed by two uppercase hexadecimal digits. -/
def pctEncode (b : Nat) : List Nat := [37, upperHexDigit (b / 16), upperHexDigit (b % 16)]

/-- Per-byte action of the escape loop. -/
def escapeByte (b : Nat) : List Nat :=
  if 127 < b ∨ b = 37 then pctEncode b else [b]

/-- `escape(input)`: NFD-decompose, then escape byte by byte. -/
def escape (nfd : GoStr → GoStr) (input : GoStr) : GoStr :=
  ((nfd input).map escapeByte).flatten

/-!
## `internal/dag/dag.go`

Node ids are assigned as `len(nodes)` at insertion time and nodes are
never removed or reordered, so a node's stored id always equals its slice
index; the model addresses nodes by index.  The `hashToIdx` map sends a
hash to the unique index holding it; since `addNode` never inserts a
duplicate hash, the map lookup coincides with the first index whose node
carries the hash.
-/

/-- A node value passed to the `Dag` API: its `Hash()` and `Name()`.
(`Run` is modelled separately by the execution environment.) -/
structure GoNode where
  hash : GoStr
  name : GoStr
deriving DecidableEq

/-- A stored graph node: name, hash and child indices. -/
structure DagNode where
  name : GoStr
  hash : GoStr
  children : List Nat
deriving DecidableEq

/-- The directed acyclic graph: the node slice (ids are indices). -/
structure Dag where
  nodes : List DagNode
deriving DecidableEq

/-- `New()` returns an empty graph. -/
def emptyDag : Dag := { nodes := [] }

/-- Errors of the dag package. -/
inductive DagError where
  | cyclicDependency (parentName childName : GoStr)
  | orphanedNode (name : GoStr)
deriving DecidableEq

/-- The children of node `i` (empty for an out-of-range id, which the Go
code never produces). -/
def childrenOf (d : Dag) (i : Nat) : List Nat :=
  match d.nodes[i]? with
  | some n => n.children
  | none => []

/-- The stored name of node `i`. -/
def nameOf (d : Dag) (i : Nat) : GoStr :=
  match d.nodes[i]? with
  | some n => n.name
  | none => []

/-- `addNode`: return the id already keyed by the node's hash, or append
a fresh node (with no children) and key its hash to the new id. -/
def addNode (d : Dag) (n : GoNode) : Dag × Nat :=
  match d.nodes.findIdx? (fun m => m.hash == n.hash) with
  | some i => (d, i)
  | none =>
    ({ nodes := d.nodes ++ [{ name := n.name, hash := n.hash, children := [] }] },
      d.nodes.length)

/-- Replace the children list of node `i`. -/
def setChildren (d : Dag) (i : Nat) (cs : List Nat) : Dag :=
  match d.nodes[i]? with
  | some n => { nodes := d.nodes.set i { n with children := cs } }
  | none => d

/-- The iteration of `dfs` over a node's children: skip visited children,
recurse into unvisited ones, short-circuit on success.  A fold that keeps
a found result unchanged yields the same value as Go's early return. -/
def dfsFold (recur : Nat → List Nat → Bool × List Nat) (cs : List Nat)
    (visited : List Nat) : Bool × List Nat :=
  cs.foldl
    (fun acc c =>
      match acc with
      | (true, v) => (true, v)
      | (false, v) => if c ∈ v then (false, v) else recur c v)
    (false, visited)

/-- `dfs(src, dst, visited)` with explicit fuel: success when `src = dst`,
otherwise mark `src` visited and search the children.  Each recursive call
visits a previously unvisited node, so fuel exceeding the node count is
never exhausted (`hasPath` supplies such fuel). -/
def dfs (d : Dag) : Nat → Nat → Nat → List Nat → Bool × List Nat
  | 0, _, _, visited => (false, visited)
  | fuel + 1, src, dst, visited =>
    if src = dst then (true, visited)
    else dfsFold (fun c v => dfs d fuel c dst v) (childrenOf d src) (src :: visited)

/-- `hasPath`: depth-first search from `src` for `dst` with an empty
visited set. -/
def hasPath (d : Dag) (src dst : Nat) : Bool :=
  (dfs d (d.nodes.length + 1) src dst []).1

/-- `AddEdge(parent, child)`: add both nodes, ignore a duplicate edge,
reject an edge whose child already reaches the parent, otherwise append
the child to the parent's children.  The Go method mutates the receiver
and returns an error; the model returns the updated graph along with the
optional error. -/
def AddEdge (d : Dag) (parent child : GoNode) : Dag × Option DagError :=
  let r1 := addNode d parent
  let d1 := r1.1
  let parentID := r1.2
  let r2 := addNode d1 child
  let d2 := r2.1
  let childID := r2.2
  if childID ∈ childrenOf d2 parentID then (d2, none)
  else if hasPath d2 childID parentID then
    (d2, some (.cyclicDependency (nameOf d2 parentID) (nameOf d2 childID)))
  else
    (setChildren d2 parentID (childrenOf d2 parentID ++ [childID]), none)

/-- Loop of `AddChain` over consecutive pairs. -/
def addChainLoop : Dag → GoNode → List GoNode → Dag × Option DagError
  | d, _, [] => (d, none)
  | d, parent, n :: rest =>
    let d1 := (addNode d parent).1
    let d2 := (addNode d1 n).1
    match AddEdge d2 parent n with
    | (d3, none) => addChainLoop d3 n rest
    | (d3, some e) => (d3, some e)

/-- `AddChain`: a single node is only inserted; otherwise consecutive
pairs are wired parent to child.  (Go would panic on an empty slice
before adding anything; the model leaves the graph unchanged.) -/
def AddChain : Dag → List GoNode → Dag × Option DagError
  | d, [] => (d, none)
  | d, [n] => ((addNode d n).1, none)
  | d, p :: rest => addChainLoop d p rest

/-- `AddEdges`: add the edges in order, stopping at the first error. -/
def AddEdges : Dag → List (GoNode × GoNode) → Dag × Option DagError
  | d, [] => (d, none)
  | d, e :: rest =>
    match AddEdge d e.1 e.2 with
    | (d1, none) => AddEdges d1 rest
    | (d1, some err) => (d1, some err)

/-- The set of ids occurring in some children list. -/
def childSet (d : Dag) : List Nat := (d.nodes.map DagNode.children).flatten

/-- Loop of `rootNodes` over the ids in ascending order. -/
def rootNodesLoop (d : Dag) (cs : List Nat) : List Nat → Except DagError (List Nat)
  | [] => .ok []
  | i :: rest =>
    if i ∈ cs then rootNodesLoop d cs rest
    else if 1 < d.nodes.length ∧ childrenOf d i = [] then
      .error (.orphanedNode (nameOf d i))
    else
      match rootNodesLoop d cs rest with
      | .error e => .error e
      | .ok roots => .ok (i :: roots)

/-- `rootNodes`: the nodes appearing in no children list; in a graph with
more than one node, such a node without children is an orphan error. -/
def rootNodes (d : Dag) : Except DagError (List Nat) :=
  rootNodesLoop d (childSet d) (List.range d.nodes.length)

/-- A mutation of the public edge-building API. -/
inductive DagOp where
  | edge (parent child : GoNode)
  | chain (ns : List GoNode)
  | edges (es : List (GoNode × GoNode))

/-- Apply one API call, keeping the mutated graph (Go mutates the
receiver whether or not an error is returned). -/
def applyOp (d : Dag) : DagOp → Dag
  | .edge p c => (AddEdge d p c).1
  | .chain ns => (AddChain d ns).1
  | .edges es => (AddEdges d es).1

/-- Apply a sequence of API calls starting from any graph. -/
def applyOps : Dag → List DagOp → Dag := List.foldl applyOp

/-!
## Execution (`node.run`, `runChildren`, `runNodes`, `RunRootNodes`)

Each node carries a mutex, a `runFuncExecuted` flag and a memoized
result; `run` holds the node's mutex for its whole body, so every
per-node critical section is atomic and an execution of the graph
linearises into a sequence of node runs.  The model threads an explicit
state (flag, result and an instrumentation counter of `runFunc`
invocations per node) through a sequential execution; children are run
in the order of the children list (Go runs them concurrently and
collects results by index, which yields the same per-index values).
`runFunc` is modelled as a deterministic function returning `none` for
an error, and fuel bounds the recursion depth (on the acyclic graphs the
package builds, recursion terminates and large fuel is never
exhausted). -/

/-- The per-run mutable state of all nodes. -/
structure RunState (T : Type) where
  executed : Nat → Bool
  result : Nat → T
  calls : Nat → Nat

/-- Pointwise function update. -/
def fupd {α : Type} (f : Nat → α) (i : Nat) (v : α) : Nat → α :=
  fun j => if j = i then v else f j

/-- The execution view of a graph: children and `runFunc` per node id. -/
structure RunGraph (T : Type) where
  children : Nat → List Nat
  runFunc : Nat → List T → Option T

/-- `runChildren`: run the children, collecting results by index and
stopping at the first error. -/
def runChildrenFold {T : Type} (step : Nat → RunState T → RunState T × Option T) :
    List Nat → RunState T → RunState T × Option (List T)
  | [], s => (s, some [])
  | c :: cs, s =>
    match step c s with
    | (s1, none) => (s1, none)
    | (s1, some v) =>
      match runChildrenFold step cs s1 with
      | (s2, none) => (s2, none)
      | (s2, some vs) => (s2, some (v :: vs))

/-- `node.run`: return the memoized result when the flag is set;
otherwise run the children, invoke `runFunc` (counted), and on success
store the result and set the flag.  A failed `runFunc` leaves the flag
unset. -/
def runNode {T : Type} (g : RunGraph T) : Nat → Nat → RunState T → RunState T × Option T
  | 0, _, s => (s, none)
  | fuel + 1, n, s =>
    if s.executed n then (s, some (s.result n))
    else
      match runChildrenFold (fun c s' => runNode g fuel c s') (g.children n) s with
      | (s1, none) => (s1, none)
      | (s1, some results) =>
        let s2 : RunState T := { s1 with calls := fupd s1.calls n (s1.calls n + 1) }
        match g.runFunc n results with
        | none => (s2, none)
        | some r =>
          ({ s2 with executed := fupd s2.executed n true, result := fupd s2.result n r },
            some r)

/-- Errors visible to a consumer of `RunRootNodes`. -/
inductive RunError where
  | dagErr (e : DagError)
  | nodeErr
deriving DecidableEq

/-- Phase one of `runNodes`: one task per root stores `(result, error)`
by root index (a failed run stores the zero value of `T`). -/
def computePairs {T : Type} [Inhabited T] (g : RunGraph T) (fuel : Nat) :
    List Nat → RunState T → List (T × Option RunError)
  | [], _ => []
  | n :: rest, s =>
    match runNode g fuel n s with
    | (s1, some v) => (v, none) :: computePairs g fuel rest s1
    | (s1, none) => (default, some .nodeErr) :: computePairs g fuel rest s1

/-- Phase two of `runNodes`: yield the pairs in index order; a pair is
yielded before its error stops the loop, and the consumer budget bounds
the number of yields (a consumer stop or a context cancellation). -/
def yieldLoop {T E : Type} : List (T × Option E) → Nat → List (T × Option E)
  | [], _ => []
  | _ :: _, 0 => []
  | p :: rest, b + 1 =>
    match p.2 with
    | some _ => [p]
    | none => p :: yieldLoop rest b

/-- `runNodes`: compute all pairs, then yield them in index order. -/
def runNodesModel {T : Type} [Inhabited T] (g : RunGraph T) (fuel : Nat)
    (roots : List Nat) (s0 : RunState T) (budget : Nat) : List (T × Option RunError) :=
  yieldLoop (computePairs g fuel roots s0) budget

/-- `RunRootNodes`: on a root-collection error, yield the zero value with
that error once; otherwise run the root nodes. -/
def runRootNodesModel {T : Type} [Inhabited T] (d : Dag) (g : RunGraph T) (fuel : Nat)
    (s0 : RunState T) (budget : Nat) : List (T × Option RunError) :=
  match rootNodes d with
  | .error e => yieldLoop [((default : T), some (.dagErr e))] budget
  | .ok roots => yieldLoop (computePairs g fuel roots s0) budget

/-!
## Claim C1: fingerprint path stability
-/

/-- Two argument vectors related by relocating directory prefixes: each
pair of corresponding arguments is either identical or a common final
path element under two directory prefixes (prefixes free of the literal
placeholder, as the temp and output directories are). -/
def ArgRel (x y : GoStr) : Prop :=
  x = y ∨
    ∃ d1 d2 name, x = d1 ++ 47 :: name ∧ y = d2 ++ 47 :: name ∧
      name ≠ [] ∧ (47 : Nat) ∉ name ∧
      goContains d1 hashTok = false ∧ goContains d2 hashTok = false

/-!
## Claim C8: playlist escaping
-/

/-- An uppercase hexadecimal digit byte. -/
def isUpperHexByte (b : Nat) : Bool :=
  (48 ≤ b && b ≤ 57) || (65 ≤ b && b ≤ 70)

/-- The spec's phrase: the last seven characters of a byte string. -/
def lastSevenBytes (l : GoStr) : GoStr := l.drop (l.length - 7)

/-!
## Claim C7: filename-format law
-/

/-- A lowercase hexadecimal digit byte (`[0-9a-f]`). -/
def isHexLowerByte (b : Nat) : Bool :=
  (48 ≤ b && b ≤ 57) || (97 ≤ b && b ≤ 102)

/-- A lowercase alphanumeric byte (`[a-z0-9]`). -/
def isLowerAlnumByte (b : Nat) : Bool :=
  (48 ≤ b && b ≤ 57) || (97 ≤ b && b ≤ 122)

/-- Checker for the artifact regex `^.+-[0-9a-f]{7}\.[a-z0-9]+$`: some
position `d` holds the dot, everything after it is a non-empty lowercase
alphanumeric extension, the seven bytes before the dot are lowercase
hexadecimal, preceded by a dash, preceded by a non-empty stem. -/
def matchesArtifact (s : GoStr) : Bool :=
  (List.range s.length).any fun d =>
    (s.getD d 0 == 46) && decide (d + 1 < s.length) &&
    ((s.drop (d + 1)).all isLowerAlnumByte) &&
    decide (9 ≤ d) && (s.getD (d - 8) 0 == 45) &&
    (((s.drop (d - 7)).take 7).all isHexLowerByte)

/-- The number of positions at which `sub` occurs in `s` (the spec's
"embedded exactly once" counts these occurrences). -/
def occCount (sub s : GoStr) : Nat :=
  ((List.range (s.length + 1)).filter fun i => sub.isPrefixOf (s.drop i)).length

/-!
## Graph properties (reachability, acyclicity, wellformedness)
-/

/-- Reachability along children edges (reflexive-transitive). -/
inductive Reach (d : Dag) : Nat → Nat → Prop where
  | refl (n : Nat) : Reach d n n
  | step {a b c : Nat} : b ∈ childrenOf d a → Reach d b c → Reach d a c

/-- A cycle: an edge whose target reaches back to its source. -/
def HasCycle (d : Dag) : Prop := ∃ a b, b ∈ childrenOf d a ∧ Reach d b a

/-- The children relation contains no cycle. -/
def Acyclic (d : Dag) : Prop := ¬ HasCycle d

/-- All children ids are valid node indices. -/
def WFDag (d : Dag) : Prop := ∀ n ∈ d.nodes, ∀ c ∈ n.children, c < d.nodes.length

/-- Stored hashes are pairwise distinct (the keys of `hashToIdx`). -/
def HashesNodup (d : Dag) : Prop := (d.nodes.map DagNode.hash).Nodup

/-- The invariant every graph reachable through the public API enjoys. -/
def DagInv (d : Dag) : Prop := WFDag d ∧ Acyclic d ∧ HashesNodup d

/-- The state thread of the tasks `runNodes` spawns: each root's `run`,
linearised in spawn order. -/
def runSeq {T : Type} (g : RunGraph T) (fuel : Nat) : List Nat → RunState T → RunState T
  | [], s => s
  | n :: rest, s => runSeq g fuel rest (runNode g fuel n s).1

/-- A ranking witnessing that the run graph's children relation is a
DAG. -/
def RankedDag {T : Type} (g : RunGraph T) (rank : Nat → Nat) : Prop :=
  ∀ n c, c ∈ g.children n → rank c < rank n

/-- The all-clean initial run state. -/
def zeroState (T : Type) [Inhabited T] : RunState T :=
  { executed := fun _ => false, result := fun _ => default, calls := fun _ => 0 }

/-!
## Claim C2: single-exec guarantee
-/

/-- The counting invariant: a node's `runFunc` has been invoked once when
its executed flag is set and never otherwise. -/
def CallsOK {T : Type} (s : RunState T) : Prop :=
  ∀ m, (s.executed m = true → s.calls m = 1) ∧ (s.executed m = false → s.calls m = 0)

/-- Shared-leaf run graph with a total `runFunc`: nodes 0 and 1 both
depend on node 2. -/
def c2g : RunGraph Nat :=
  { children := fun n => if n = 2 then [] else [2]
    runFunc := fun _ _ => some 0 }

/-- Rank function showing `c2g` is a DAG. -/
def c2rank : Nat → Nat :=
  fun n => if n = 2 then 0 else 1

/-- Shared-leaf run graph whose leaf `runFunc` fails. -/
def c2gFail : RunGraph Nat :=
  { children := fun n => if n = 2 then [] else [2]
    runFunc := fun n _ => if n = 2 then none else some 0 }

/-!
## Claim C3: cycle rejection and acyclicity preservation
-/

/-- The body of the fold inside `dfs` (named so its equations can be
stated). -/
def dfsStep (recur : Nat → List Nat → Bool × List Nat) :
    Bool × List Nat → Nat → Bool × List Nat :=
  fun acc c =>
    match acc with
    | (true, v) => (true, v)
    | (false, v) => if c ∈ v then (false, v) else recur c v

/-- The number of node ids not yet visited, the quantity `dfs` strictly
decreases before each recursive call. -/
def freshCount (d : Dag) (visited : List Nat) : Nat :=
  ((List.range d.nodes.length).filter (fun i => decide (i ∉ visited))).length

/-- The graph after `AddEdge` has inserted both endpoint nodes. -/
def edgeDag (d : Dag) (parent child : GoNode) : Dag :=
  (addNode (addNode d parent).1 child).1

/-- The id `AddEdge` uses for the parent node. -/
def parentId (d : Dag) (parent child : GoNode) : Nat := (addNode d parent).2

/-- The id `AddEdge` uses for the child node. -/
def childId (d : Dag) (parent child : GoNode) : Nat :=
  (addNode (addNode d parent).1 child).2

/-- Endpoint nodes used by the C3 witness. -/
def c3A : GoNode := { hash := gs "a", name := gs "A" }

/-- Second endpoint node used by the C3 witness. -/
def c3B : GoNode := { hash := gs "b", name := gs "B" }

example : goContains (gs "a/say-<hash>.wav") hashTok = true := by decide

example : goContains (gs "a/say.wav") hashTok = false := by decide

example : goBase (gs "tmp/say.wav") = gs "say.wav" := by decide

example : goBase (gs "say.wav") = gs "say.wav" := by decide

example : goExt (gs "tmp/say-x.wav") = gs ".wav" := by decide

example : goExt (gs "tmp.d/say") = gs "" := by decide

example : goTrimSuffix (gs "tmp/ab-1234567.wav") (gs ".wav") = gs "tmp/ab-1234567" := by
  decide

example :
    goReplaceAll (gs "t/say-<hash>.wav") hashTok (gs "abc1234") = gs "t/say-abc1234.wav" := by
  decide

example : escape (fun s => s) (gs "abc") = gs "abc" := by decide

example : escape (fun s => s) (gs "a%b") = gs "a%25b" := by decide

/-!
## Lemmas about the byte-string functions
-/

theorem goContains_iff {s sub : GoStr} : goContains s sub = true ↔ sub <:+: s := by
  induction s with
  | nil =>
    simp [goContains, List.isPrefixOf_iff_prefix]
  | cons c t ih =>
    simp [goContains, List.isPrefixOf_iff_prefix, ih, List.infix_cons_iff]

theorem prefix_split {u d n : GoStr} {x : Nat} (hx : x ∉ u) (h : u <+: d ++ x :: n) :
    u <+: d := by
  rcases Nat.lt_or_ge d.length u.length with hl | hl
  · exfalso
    apply hx
    have he : u = (d ++ x :: n).take u.length := List.prefix_iff_eq_take.mp h
    have hg : u[d.length]? = some x := by
      rw [he, List.getElem?_take]
      simp [hl, List.getElem?_append_right (Nat.le_refl d.length)]
    exact List.getElem?_mem hg
  · have he : u = (d ++ x :: n).take u.length := List.prefix_iff_eq_take.mp h
    have ht : (d ++ x :: n).take u.length = d.take u.length := by
      rw [List.take_append_eq_append_take]
      simp [Nat.sub_eq_zero_of_le hl]
    exact List.prefix_iff_eq_take.mpr (he.trans ht)

theorem infix_split {t d n : GoStr} {x : Nat} (hx : x ∉ t) (h : t <:+: d ++ x :: n) :
    t <:+: d ∨ t <:+: n := by
  induction d with
  | nil =>
    rw [List.nil_append] at h
    rcases List.infix_cons_iff.mp h with hp | hi
    · cases t with
      | nil => exact Or.inl List.nil_infix
      | cons a u =>
        rcases List.cons_prefix_cons.mp hp with ⟨rfl, _⟩
        exact absurd (List.mem_cons_self _ _) hx
    · exact Or.inr hi
  | cons c d ih =>
    rw [List.cons_append] at h
    rcases List.infix_cons_iff.mp h with hp | hi
    · cases t with
      | nil => exact Or.inl List.nil_infix
      | cons a u =>
        rcases List.cons_prefix_cons.mp hp with ⟨rfl, hu⟩
        have hxu : x ∉ u := fun hm => hx (List.mem_cons_of_mem _ hm)
        exact Or.inl (List.cons_prefix_cons.mpr ⟨rfl, prefix_split hxu hu⟩).isInfix
    · rcases ih hi with h1 | h2
      · exact Or.inl (List.infix_cons_iff.mpr (Or.inr h1))
      · exact Or.inr h2

theorem infix_append_sep_right {t d n : GoStr} {x : Nat} (h : t <:+: n) :
    t <:+: d ++ x :: n := by
  rcases h with ⟨s, u, rfl⟩
  exact ⟨d ++ x :: s, u, by simp⟩

theorem goContains_append_sep {d n t : GoStr} (hxt : (47 : Nat) ∉ t)
    (hd : goContains d t = false) :
    goContains (d ++ 47 :: n) t = goContains n t := by
  by_cases hn : goContains n t = true
  · rw [hn]
    rw [goContains_iff] at hn ⊢
    rcases hn with ⟨s, u, rfl⟩
    exact ⟨d ++ 47 :: s, u, by simp⟩
  · rw [Bool.not_eq_true] at hn
    rw [hn]
    rw [Bool.eq_false_iff]
    intro hc
    rcases infix_split hxt (goContains_iff.mp hc) with h1 | h2
    · rw [goContains_iff.mpr h1] at hd
      cases hd
    · rw [goContains_iff.mpr h2] at hn
      cases hn

theorem takeWhile_all {p : Nat → Bool} {l : List Nat} (h : ∀ a ∈ l, p a = true) :
    l.takeWhile p = l := by
  induction l with
  | nil => rfl
  | cons a l ih =>
    simp only [List.takeWhile_cons, h a (List.mem_cons_self _ _), if_true]
    rw [ih fun b hb => h b (List.mem_cons_of_mem _ hb)]

theorem takeWhile_append_stop {p : Nat → Bool} {l r : List Nat} {x : Nat}
    (hl : ∀ a ∈ l, p a = true) (hx : p x = false) :
    (l ++ x :: r).takeWhile p = l := by
  induction l with
  | nil => simp [List.takeWhile_cons, hx]
  | cons a l ih =>
    rw [List.cons_append, List.takeWhile_cons]
    simp only [hl a (List.mem_cons_self _ _), if_true]
    rw [ih fun b hb => hl b (List.mem_cons_of_mem _ hb)]

theorem reverse_append_sep {d n : GoStr} {x : Nat} :
    (d ++ x :: n).reverse = n.reverse ++ x :: d.reverse := by
  rw [List.reverse_append, List.reverse_cons, List.append_assoc]
  rfl

theorem goBase_append {d n : GoStr} (hne : n ≠ []) (h47 : (47 : Nat) ∉ n) :
    goBase (d ++ 47 :: n) = n := by
  have hrev : (d ++ 47 :: n).reverse = n.reverse ++ 47 :: d.reverse := reverse_append_sep
  have hdrop : dropTrailingSeps (d ++ 47 :: n) = d ++ 47 :: n := by
    unfold dropTrailingSeps
    rcases List.exists_cons_of_ne_nil (by simpa using hne : n.reverse ≠ []) with ⟨b, m, hb⟩
    have hbn : b ∈ n := by
      have hmem : b ∈ n.reverse := by rw [hb]; exact List.mem_cons_self _ _
      simpa using hmem
    have hbne : (b == sepByte) = false := by
      simp only [sepByte, beq_eq_false_iff_ne, ne_eq]
      intro hEq
      exact h47 (hEq ▸ hbn)
    rw [hrev, hb, List.cons_append, List.dropWhile_cons, hbne]
    simp only [Bool.false_eq_true, if_false]
    rw [← List.cons_append, ← hb, ← hrev, List.reverse_reverse]
  have htake : (d ++ 47 :: n).reverse.takeWhile (fun b => b != sepByte) = n.reverse := by
    rw [hrev]
    apply takeWhile_append_stop
    · intro a ha
      have han : a ∈ n := by simpa using ha
      simp only [sepByte, bne_iff_ne, ne_eq]
      intro hEq
      exact h47 (hEq ▸ han)
    · simp [sepByte]
  unfold goBase
  rw [if_neg (by simp)]
  unfold lastElem
  rw [hdrop, htake, List.reverse_reverse, if_neg hne]

theorem goExt_append {d n : GoStr} (h47 : (47 : Nat) ∉ n) :
    goExt (d ++ 47 :: n) = goExt n := by
  have htake : (d ++ 47 :: n).reverse.takeWhile (fun b => b != sepByte) = n.reverse := by
    rw [reverse_append_sep]
    apply takeWhile_append_stop
    · intro a ha
      have han : a ∈ n := by simpa using ha
      simp only [sepByte, bne_iff_ne, ne_eq]
      intro hEq
      exact h47 (hEq ▸ han)
    · simp [sepByte]
  have htake2 : n.reverse.takeWhile (fun b => b != sepByte) = n.reverse := by
    apply takeWhile_all
    intro a ha
    have han : a ∈ n := by simpa using ha
    simp only [sepByte, bne_iff_ne, ne_eq]
    intro hEq
    exact h47 (hEq ▸ han)
  unfold goExt
  rw [htake, htake2]

theorem argRel_basePath {x y : GoStr} (h : ArgRel x y) :
    (if goContains x hashTok then goExt x
      else if goContains x (gs "/") then goBase x else x) =
    (if goContains y hashTok then goExt y
      else if goContains y (gs "/") then goBase y else y) := by
  rcases h with rfl | ⟨d1, d2, name, rfl, rfl, hne, h47, hd1, hd2⟩
  · rfl
  have h47tok : (47 : Nat) ∉ hashTok := by decide
  have hcx : goContains (d1 ++ 47 :: name) hashTok = goContains name hashTok :=
    goContains_append_sep h47tok hd1
  have hcy : goContains (d2 ++ 47 :: name) hashTok = goContains name hashTok :=
    goContains_append_sep h47tok hd2
  rw [hcx, hcy]
  by_cases hc : goContains name hashTok = true
  · rw [hc, if_pos rfl, if_pos rfl, goExt_append h47, goExt_append h47]
  · rw [Bool.not_eq_true] at hc
    have hslash : gs "/" = [47] := by decide
    have hsl : ∀ d : GoStr, goContains (d ++ 47 :: name) (gs "/") = true := by
      intro d
      rw [hslash]
      exact goContains_iff.mpr ⟨d, name, by simp⟩
    rw [hc, hsl d1, hsl d2]
    simp only [Bool.false_eq_true, if_false, if_true]
    rw [goBase_append hne h47, goBase_append hne h47]

theorem argsBasePath_stable {a b : List GoStr} (h : List.Forall₂ ArgRel a b) :
    argsBasePath a = argsBasePath b := by
  induction h with
  | nil => rfl
  | cons hr _ ih =>
    unfold argsBasePath at ih ⊢
    rw [List.map_cons, List.map_cons, argRel_basePath hr, ih]

/-- C1.  Fingerprint path stability: the fingerprint computed by
`replaceHash` via `hashShort` is invariant under relocating the directory
prefixes of path-shaped arguments.  Directory components are stripped by
`argsBasePath` (`filepath.Base`), placeholder-bearing arguments are
reduced to their extension, so the digest input, and with it the digest
of any digest function (in particular the SHA-256 based `hashShort`), is
identical for the two argument vectors. -/
theorem c1_fingerprint_path_stability (hashFn : HashFn) (cmdStr : GoStr)
    {a b : List GoStr} (h : List.Forall₂ ArgRel a b) :
    hashFn cmdStr (argsBasePath a) = hashFn cmdStr (argsBasePath b) ∧
      ∀ ra rb, replaceHash hashFn cmdStr a = some ra →
        replaceHash hashFn cmdStr b = some rb → ra.2.2 = rb.2.2 := by
  have hstable := argsBasePath_stable h
  constructor
  · rw [hstable]
  · intro ra rb hra hrb
    unfold replaceHash at hra hrb
    rcases hia : a.findIdx? fun arg => goContains arg hashTok with _ | ia
    · rw [hia] at hra
      cases hra
    rcases hib : b.findIdx? fun arg => goContains arg hashTok with _ | ib
    · rw [hib] at hrb
      cases hrb
    rw [hia] at hra
    rw [hib] at hrb
    cases hra
    cases hrb
    simp only [hstable]

/-- C1 witness: a concrete `ffmpeg`-style argument vector under two
different temp directories gets the same fingerprint. -/
theorem c1_fingerprint_path_stability_witness :
    List.Forall₂ ArgRel
      [gs "-i", gs "tmpA/in.wav", gs "tmpA/say-<hash>.wav"]
      [gs "-i", gs "tmpB/in.wav", gs "tmpB/say-<hash>.wav"] ∧
    (fun s l => s ++ l.flatten : HashFn) (gs "sox")
        (argsBasePath [gs "-i", gs "tmpA/in.wav", gs "tmpA/say-<hash>.wav"]) =
      (fun s l => s ++ l.flatten : HashFn) (gs "sox")
        (argsBasePath [gs "-i", gs "tmpB/in.wav", gs "tmpB/say-<hash>.wav"]) := by
  have hrel : List.Forall₂ ArgRel
      [gs "-i", gs "tmpA/in.wav", gs "tmpA/say-<hash>.wav"]
      [gs "-i", gs "tmpB/in.wav", gs "tmpB/say-<hash>.wav"] := by
    refine List.Forall₂.cons (Or.inl rfl) (List.Forall₂.cons ?_ (List.Forall₂.cons ?_ .nil))
    · exact Or.inr ⟨gs "tmpA", gs "tmpB", gs "in.wav", by decide, by decide, by decide,
        by decide, by decide, by decide⟩
    · exact Or.inr ⟨gs "tmpA", gs "tmpB", gs "say-<hash>.wav", by decide, by decide,
        by decide, by decide, by decide, by decide⟩
  exact ⟨hrel, (c1_fingerprint_path_stability (fun s l => s ++ l.flatten) (gs "sox") hrel).1⟩

/-!
## Claim C10: the implicit placeholder precondition of `newCmd`
-/

/-- C10.  `newCmd` (via `replaceHash`) panics exactly when no argument
contains the `<hash>` placeholder (`slices.IndexFunc` returns -1 and the
index expression goes out of range); when some argument contains it, the
placeholder in the first such argument is replaced by the computed
seven-character hash, the node's hash is that fingerprint, and the
node's output file is the basename of the replaced argument. -/
theorem c10_newCmd_placeholder_precondition (hashFn : HashFn) (cmdStr : GoStr)
    (args : List GoStr) (hlen : ∀ s l, (hashFn s l).length = 7) :
    (newCmd hashFn cmdStr args = none ↔
      ∀ a ∈ args, goContains a hashTok = false) ∧
    ∀ c, newCmd hashFn cmdStr args = some c →
      c.cmdStr = cmdStr ∧
      c.hash = hashFn cmdStr (argsBasePath args) ∧
      c.hash.length = 7 ∧
      ∃ i, args.findIdx? (fun a => goContains a hashTok) = some i ∧
        c.args = args.set i (goReplaceAll (args.getD i []) hashTok c.hash) ∧
        c.outFile = goBase (goReplaceAll (args.getD i []) hashTok c.hash) := by
  constructor
  · unfold newCmd replaceHash
    rcases hidx : args.findIdx? (fun a => goContains a hashTok) with _ | i
    · simp only [hidx]
      constructor
      · intro _
        exact List.findIdx?_eq_none_iff.mp hidx
      · intro _
        trivial
    · simp only [hidx]
      constructor
      · intro hc
        cases hc
      · intro hall
        have hi := List.findIdx?_eq_none_iff.mpr hall
        rw [hidx] at hi
        cases hi
  · intro c hc
    unfold newCmd replaceHash at hc
    rcases hidx : args.findIdx? (fun a => goContains a hashTok) with _ | i
    · rw [hidx] at hc
      cases hc
    · rw [hidx] at hc
      cases hc
      exact ⟨rfl, rfl, hlen _ _, i, rfl, rfl, rfl⟩

/-- C10 witness: a concrete `say` command with a placeholder output path,
and the same command with the placeholder removed (which panics). -/
theorem c10_newCmd_placeholder_precondition_witness :
    (∀ s l, ((fun _ _ => gs "abc1234" : HashFn) s l).length = 7) ∧
    newCmd (fun _ _ => gs "abc1234") (gs "say") [gs "t/say.wav"] = none ∧
    ∀ c, newCmd (fun _ _ => gs "abc1234") (gs "say") [gs "t/say-<hash>.wav"] = some c →
      c.outFile = gs "say-abc1234.wav" := by
  have hlen : ∀ s l, ((fun _ _ => gs "abc1234" : HashFn) s l).length = 7 := by
    intro s l
    show (gs "abc1234").length = 7
    decide
  refine ⟨hlen, ?_, ?_⟩
  · exact (c10_newCmd_placeholder_precondition (fun _ _ => gs "abc1234") (gs "say")
      [gs "t/say.wav"] hlen).1.mpr (by decide)
  · intro c hc
    rcases (c10_newCmd_placeholder_precondition (fun _ _ => gs "abc1234") (gs "say")
        [gs "t/say-<hash>.wav"] hlen).2 c hc with ⟨_, hh, _, i, hi, _, hout⟩
    have hi0 : i = 0 := by
      have : ([gs "t/say-<hash>.wav"].findIdx? fun a => goContains a hashTok) = some 0 := by
        decide
      rw [this] at hi
      cases hi
      rfl
    subst hi0
    rw [hout, hh]
    decide

theorem upperHexDigit_valid {d : Nat} (h : d < 16) :
    isUpperHexByte (upperHexDigit d) = true := by
  unfold upperHexDigit isUpperHexByte
  rcases Nat.lt_or_ge d 10 with h10 | h10
  · rw [if_pos h10]
    simp only [Bool.or_eq_true, Bool.and_eq_true, decide_eq_true_eq]
    omega
  · rw [if_neg (Nat.not_lt_of_ge h10)]
    simp only [Bool.or_eq_true, Bool.and_eq_true, decide_eq_true_eq]
    omega

theorem flatten_map_singleton (l : List Nat) :
    (l.map (fun b => ([b] : List Nat))).flatten = l := by
  induction l with
  | nil => rfl
  | cons a l ih =>
    rw [List.map_cons, List.flatten_cons, ih]
    rfl

theorem upperHexDigit_lt {d : Nat} (h : d < 16) : upperHexDigit d < 128 := by
  unfold upperHexDigit
  rcases Nat.lt_or_ge d 10 with h10 | h10
  · rw [if_pos h10]
    omega
  · rw [if_neg (Nat.not_lt_of_ge h10)]
    omega

/-- C8 counterexample: the claim says escape is the identity on every
ASCII input, but the ASCII input `"%"` (fixed by NFD, so the identity
decomposition is the real one here) is escaped to `"%25"`. -/
theorem c8_escape_ascii_counterexample :
    escape (fun s => s) (gs "%") = gs "%25" ∧ escape (fun s => s) (gs "%") ≠ gs "%" := by
  decide

/-- C8 amended.  Playlist escaping: escape is the identity on ASCII
inputs containing no `%` byte; in general the output is the
concatenation of per-byte chunks where exactly the post-NFD bytes above
127 or equal to `%` become a three-byte `%XX` escape with uppercase
hexadecimal digits, every other byte is written literally, and every
output byte is ASCII. -/
theorem c8_escape_shape (nfd : GoStr → GoStr) (s : GoStr)
    (hbytes : ∀ b ∈ nfd s, b < 256) :
    ((nfd s = s ∧ (∀ b ∈ s, b < 128) ∧ (37 : Nat) ∉ s) → escape nfd s = s) ∧
    escape nfd s = ((nfd s).map escapeByte).flatten ∧
    (∀ b ∈ nfd s,
      (127 < b ∨ b = 37 →
        escapeByte b = [37, upperHexDigit (b / 16), upperHexDigit (b % 16)] ∧
        isUpperHexByte (upperHexDigit (b / 16)) = true ∧
        isUpperHexByte (upperHexDigit (b % 16)) = true) ∧
      (¬(127 < b ∨ b = 37) → escapeByte b = [b])) ∧
    ∀ b ∈ escape nfd s, b < 128 := by
  refine ⟨?_, rfl, ?_, ?_⟩
  · rintro ⟨hid, hascii, hpct⟩
    unfold escape
    rw [hid]
    have hmap : s.map escapeByte = s.map (fun b => [b]) := by
      apply List.map_congr_left
      intro b hb
      unfold escapeByte
      rw [if_neg]
      push_neg
      constructor
      · have := hascii b hb
        omega
      · intro hEq
        exact absurd (hEq ▸ hb) hpct
    rw [hmap, flatten_map_singleton]
  · intro b hb
    constructor
    · intro hcond
      have hb256 := hbytes b hb
      refine ⟨?_, upperHexDigit_valid (by omega), upperHexDigit_valid (Nat.mod_lt _ (by omega))⟩
      unfold escapeByte pctEncode
      rw [if_pos hcond]
    · intro hcond
      unfold escapeByte
      rw [if_neg hcond]
  · intro b hb
    unfold escape at hb
    rw [List.mem_flatten] at hb
    rcases hb with ⟨chunk, hchunk, hbc⟩
    rw [List.mem_map] at hchunk
    rcases hchunk with ⟨a, ha, rfl⟩
    have ha256 := hbytes a ha
    unfold escapeByte at hbc
    by_cases hcond : 127 < a ∨ a = 37
    · rw [if_pos hcond] at hbc
      unfold pctEncode at hbc
      simp only [List.mem_cons, List.not_mem_nil, or_false] at hbc
      rcases hbc with rfl | rfl | rfl
      · omega
      · exact upperHexDigit_lt (by omega)
      · exact upperHexDigit_lt (Nat.mod_lt _ (by omega))
    · rw [if_neg hcond] at hbc
      simp only [List.mem_cons, List.not_mem_nil, or_false] at hbc
      subst hbc
      push_neg at hcond
      omega

/-- C8 witness: a mixed input with a high byte (the two UTF-8 bytes of
`é`, which NFD decomposes to `e` plus the combining-accent bytes 204,
129). -/
theorem c8_escape_shape_witness :
    (∀ b ∈ [101, 204, 129], b < 256) ∧
    escape (fun _ => [101, 204, 129]) (gs "é") = gs "e%CC%81" ∧
    ∀ b ∈ escape (fun _ => [101, 204, 129]) (gs "é"), b < 128 := by
  refine ⟨by decide, by decide, ?_⟩
  exact (c8_escape_shape (fun _ => [101, 204, 129]) (gs "é") (by decide)).2.2.2

/-!
## Claim C9: fingerprint extraction from indexed paths
-/

theorem take_isPre (l : List Nat) (n : Nat) : l.take n <+: l :=
  ⟨l.drop n, List.take_append_drop n l⟩

theorem takeWhile_isPre (p : Nat → Bool) (l : List Nat) : l.takeWhile p <+: l :=
  ⟨l.dropWhile p, List.takeWhile_append_dropWhile p l⟩

theorem pre_reverse_suffix {u s : GoStr} (h : u <+: s.reverse) : u.reverse <:+ s := by
  rcases h with ⟨t, ht⟩
  refine ⟨t.reverse, ?_⟩
  have hc := congrArg List.reverse ht
  rw [List.reverse_append, List.reverse_reverse] at hc
  exact hc

theorem goExt_suffix (s : GoStr) : goExt s <:+ s := by
  unfold goExt
  rcases hidx : (s.reverse.takeWhile (fun b => b != sepByte)).findIdx? (fun b => b == 46)
    with _ | j
  · exact List.nil_suffix
  · exact pre_reverse_suffix
      (((take_isPre _ (j + 1)).trans (takeWhile_isPre _ _)))

theorem goTrimSuffix_ext (s : GoStr) :
    goTrimSuffix s (goExt s) = s.take (s.length - (goExt s).length) := by
  unfold goTrimSuffix
  rw [if_pos (List.isSuffixOf_iff_suffix.mpr (goExt_suffix s))]

theorem extractHash_append {d name : GoStr} (h47 : (47 : Nat) ∉ name)
    (hlen : 7 ≤ (goTrimSuffix name (goExt name)).length) :
    extractHash (d ++ 47 :: name) =
      some (lastSevenBytes (goTrimSuffix name (goExt name))) := by
  have hext : goExt (d ++ 47 :: name) = goExt name := goExt_append h47
  have hsuf : (goExt name).length ≤ name.length := (goExt_suffix name).length_le
  have htrim : goTrimSuffix name (goExt name) = name.take (name.length - (goExt name).length) :=
    goTrimSuffix_ext name
  have hstem : goTrimSuffix (d ++ 47 :: name) (goExt (d ++ 47 :: name)) =
      (d ++ [47]) ++ goTrimSuffix name (goExt name) := by
    rw [hext]
    have hsufw : (goExt name).isSuffixOf (d ++ 47 :: name) = true := by
      apply List.isSuffixOf_iff_suffix.mpr
      rcases goExt_suffix name with ⟨t, ht⟩
      exact ⟨d ++ 47 :: t, by rw [List.append_assoc, List.cons_append, ht]⟩
    have hsufn : (goExt name).isSuffixOf name = true :=
      List.isSuffixOf_iff_suffix.mpr (goExt_suffix name)
    unfold goTrimSuffix
    rw [if_pos hsufw, if_pos hsufn]
    have hrw : d ++ 47 :: name = (d ++ [47]) ++ name := by
      rw [List.append_assoc]
      rfl
    rw [hrw, List.take_append_eq_append_take]
    have h1 : (d ++ [47]).take (((d ++ [47]) ++ name).length - (goExt name).length) =
        d ++ [47] := by
      apply List.take_of_length_le
      simp
      omega
    rw [h1]
    congr 1
    have hk : ((d ++ [47]) ++ name).length - (goExt name).length - (d ++ [47]).length =
        name.length - (goExt name).length := by
      simp
      omega
    rw [hk]
  unfold extractHash
  rw [hstem]
  have hl2 : ((d ++ [47]) ++ goTrimSuffix name (goExt name)).length =
      d.length + 1 + (goTrimSuffix name (goExt name)).length := by
    simp
    omega
  rw [if_pos (by rw [hl2]; omega)]
  congr 1
  unfold lastSevenBytes
  rw [List.drop_append_eq_append_drop]
  have hd2 : (d ++ [47]).drop (((d ++ [47]) ++ goTrimSuffix name (goExt name)).length - 7) =
      [] := by
    apply List.drop_eq_nil_of_le
    rw [hl2]
    simp
    omega
  rw [hd2, List.nil_append, hl2]
  congr 1
  simp
  omega

/-- C9 counterexample: the file `ab.wav` in the directory `t` is indexed
by `listFilePaths`, but `extractHash` on the indexed path panics (the
path minus its extension is shorter than seven bytes), so the
computation is not well-defined for every indexed path and startup
indexing by `filePaths` panics; moreover for the directory `outdir` the
extracted key spans directory bytes instead of the basename. -/
theorem c9_extractHash_counterexample :
    listFilePaths (gs "t") [gs "ab.wav"] = [gs "t/ab.wav"] ∧
    extractHash (gs "t/ab.wav") = none ∧
    filePaths (listFilePaths (gs "t") [gs "ab.wav"]) = none ∧
    extractHash (gs "outdir/ab.wav") = some (gs "tdir/ab") := by
  decide

/-- C9 amended.  For every indexed path (of the form directory, slash,
entry name), when the entry name minus its extension is at least seven
bytes long, the classification key computed by `extractHash` equals the
last seven characters of the path's basename with its extension removed;
for shorter stems the key spans directory bytes or the computation
panics. -/
theorem c9_extractHash_amended (dir : GoStr) (names : List GoStr) :
    (∀ p ∈ listFilePaths dir names, ∃ nm ∈ names, p = dir ++ gs "/" ++ nm) ∧
    ∀ name : GoStr, (47 : Nat) ∉ name →
      7 ≤ (goTrimSuffix name (goExt name)).length →
      extractHash (dir ++ gs "/" ++ name) =
        some (lastSevenBytes (goTrimSuffix (goBase (dir ++ gs "/" ++ name))
          (goExt (goBase (dir ++ gs "/" ++ name))))) := by
  constructor
  · intro p hp
    unfold listFilePaths at hp
    rw [List.mem_map] at hp
    rcases hp with ⟨nm, hnm, rfl⟩
    exact ⟨nm, List.mem_of_mem_filter hnm, rfl⟩
  · intro name h47 hlen
    have hne : name ≠ [] := by
      intro hnil
      rw [hnil] at hlen
      simp [goTrimSuffix, goExt] at hlen
    have hform : dir ++ gs "/" ++ name = dir ++ 47 :: name := by
      rw [List.append_assoc]
      rfl
    rw [hform, goBase_append hne h47, extractHash_append h47 hlen]

/-- C9 witness: a grammar-conforming artifact name in the output
directory; the key is the fingerprint `abc1234`. -/
theorem c9_extractHash_amended_witness :
    ((47 : Nat) ∉ gs "my-file-abc1234.mp3" ∧
      7 ≤ (goTrimSuffix (gs "my-file-abc1234.mp3") (goExt (gs "my-file-abc1234.mp3"))).length) ∧
    extractHash (gs "out" ++ gs "/" ++ gs "my-file-abc1234.mp3") = some (gs "abc1234") := by
  refine ⟨by decide, ?_⟩
  rw [(c9_extractHash_amended (gs "out") []).2 (gs "my-file-abc1234.mp3")
    (by decide) (by decide)]
  decide

/-!
## Claim C4: file-cache lookup tri-state
-/

theorem indexInsert_wf {idx : FileIndex} {h p : GoStr}
    (hwf : ∀ b ∈ idx, b.snd ≠ []) : ∀ b ∈ indexInsert idx h p, b.snd ≠ [] := by
  intro b hb
  unfold indexInsert at hb
  rcases hfind : idx.find? (fun b => b.fst == h) with _ | bu
  · rw [hfind] at hb
    rcases List.mem_append.mp hb with hold | hnew
    · exact hwf b hold
    · rcases List.mem_singleton.mp hnew with rfl
      simp
  · rw [hfind] at hb
    rw [List.mem_map] at hb
    rcases hb with ⟨b0, hb0, rfl⟩
    by_cases hc : (b0.fst == h) = true
    · rw [if_pos hc]
      simp
    · rw [if_neg hc]
      exact hwf b0 hb0

theorem filePaths_wf (files : List GoStr) :
    ∀ idx, filePaths files = some idx → ∀ b ∈ idx, b.snd ≠ [] := by
  unfold filePaths
  have hgen : ∀ (fs : List GoStr) (acc : Option FileIndex),
      (∀ i0, acc = some i0 → ∀ b ∈ i0, b.snd ≠ []) →
      ∀ idx,
        fs.foldl
          (fun acc f =>
            match acc with
            | none => none
            | some idx =>
              match extractHash f with
              | none => none
              | some h => some (indexInsert idx h f))
          acc = some idx →
        ∀ b ∈ idx, b.snd ≠ [] := by
    intro fs
    induction fs with
    | nil =>
      intro acc hacc idx hidx
      exact hacc idx hidx
    | cons f fs ih =>
      intro acc hacc idx hidx
      rw [List.foldl_cons] at hidx
      apply ih _ _ idx hidx
      intro i0 hi0
      rcases acc with _ | i1
      · cases hi0
      · rcases hext : extractHash f with _ | hsh
        · rw [hext] at hi0
          cases hi0
        · rw [hext] at hi0
          cases hi0
          exact indexInsert_wf (hacc i1 rfl)
  intro idx hidx
  exact hgen files (some []) (by intro i0 hi0; cases hi0; intro b hb; cases hb) idx hidx

/-- C4 counterexample to the universally quantified tri-state: for the
desired basename `ab.wav` — the name `buildCopyWav` passes to
`useExistingFile` for a wav track named `ab` — with no basename hit,
the lookup panics inside `extractHash` (`str[len(str)-7:]` on a
five-byte trimmed string) instead of returning `created`. -/
theorem c4_useExistingFile_counterexample :
    useExistingFile (fun s => s) [] (gs "ab.wav") = CacheOutcome.panicked ∧
    extractHash (gs "ab.wav") = none ∧
    (buildCopyWav (gs "t/x.wav") (gs "ab")).outputFile = gs "ab.wav" := by
  refine ⟨by decide, by decide, by decide⟩

/-- C4 (amended).  File-cache lookup tri-state for desired basenames
whose extension-trimmed stem is at least seven bytes (the fingerprint is
extractable; for shorter stems `extractHash` panics, see the
counterexample), checked strictly in order: the lookup returns `skipped`
exactly when some indexed path's basename, normalised by `nfc`, equals
the desired basename; otherwise, when the fingerprint extracted from the
desired basename keys a bucket, an arbitrary element of the bucket is
the copy source and the result is `copied`; otherwise the result is
`created`.  The non-empty-bucket hypothesis holds for every index the
cache builds at startup: the last conjunct shows `filePaths` only
produces non-empty buckets.  (The physical copy to the source's
directory joined with the desired name is a filesystem effect outside
the model.) -/
theorem c4_useExistingFile_tristate (nfc : GoStr → GoStr) (idx : FileIndex)
    (outFile : GoStr) (hwf : ∀ b ∈ idx, b.snd ≠ []) (h : GoStr)
    (hext : extractHash outFile = some h) :
    (useExistingFile nfc idx outFile = .skippedOut ↔
      ∃ p ∈ indexPaths idx, nfc (goBase p) = outFile) ∧
    ((¬ ∃ p ∈ indexPaths idx, nfc (goBase p) = outFile) →
      (∀ paths, indexLookup idx h = some paths →
        ∃ src ∈ paths, useExistingFile nfc idx outFile = .copiedOut src) ∧
      (indexLookup idx h = none → useExistingFile nfc idx outFile = .createdOut)) ∧
    ∀ files idx', filePaths files = some idx' → ∀ b ∈ idx', b.snd ≠ [] := by
  refine ⟨?_, ?_, fun files idx' => filePaths_wf files idx'⟩
  · unfold useExistingFile
    rcases hscan : (indexPaths idx).any (fun p => nfc (goBase p) == outFile) with _ | _
    · simp only [Bool.false_eq_true, if_false]
      constructor
      · intro hres
        simp only [hext] at hres
        rcases hlook : indexLookup idx h with _ | paths
        · simp only [hlook] at hres
          cases hres
        · simp only [hlook] at hres
          rcases paths with _ | ⟨p, rest⟩
          · cases hres
          · cases hres
      · intro ⟨p, hp, hnfc⟩
        have hcon : (indexPaths idx).any (fun p => nfc (goBase p) == outFile) = true :=
          List.any_eq_true.mpr ⟨p, hp, beq_iff_eq.mpr hnfc⟩
        rw [hscan] at hcon
        cases hcon
    · simp only [if_true]
      constructor
      · intro _
        rcases List.any_eq_true.mp hscan with ⟨p, hp, hbeq⟩
        exact ⟨p, hp, beq_iff_eq.mp hbeq⟩
      · intro _
        trivial
  · intro hno
    have hscan : (indexPaths idx).any (fun p => nfc (goBase p) == outFile) = false := by
      rcases hs : (indexPaths idx).any (fun p => nfc (goBase p) == outFile) with _ | _
      · rfl
      · rcases List.any_eq_true.mp hs with ⟨p, hp, hbeq⟩
        exact absurd ⟨p, hp, beq_iff_eq.mp hbeq⟩ hno
    constructor
    · intro paths hlook
      have hne : paths ≠ [] := by
        unfold indexLookup at hlook
        rcases hfind : idx.find? (fun b => b.fst == h) with _ | bu
        · rw [hfind] at hlook
          cases hlook
        · rw [hfind] at hlook
          cases hlook
          exact hwf bu (List.mem_of_find?_eq_some hfind)
      rcases hpaths : paths with _ | ⟨p, rest⟩
      · exact absurd hpaths hne
      · subst hpaths
        refine ⟨p, List.mem_cons_self _ _, ?_⟩
        unfold useExistingFile
        rw [hscan]
        simp only [Bool.false_eq_true, if_false, hext, hlook]
    · intro hlook
      unfold useExistingFile
      rw [hscan]
      simp only [Bool.false_eq_true, if_false, hext, hlook]

/-- C4 witness: an index holding one artifact; looking up the same
basename is a `skipped` hit, and looking up a fresh name with the same
fingerprint is a `copied` hit from that artifact. -/
theorem c4_useExistingFile_tristate_witness :
    (∀ b ∈ [(gs "abc1234", [gs "t/say-abc1234.wav"])], b.snd ≠ []) ∧
    extractHash (gs "say-abc1234.wav") = some (gs "abc1234") ∧
    useExistingFile (fun s => s) [(gs "abc1234", [gs "t/say-abc1234.wav"])]
      (gs "say-abc1234.wav") = .skippedOut := by
  refine ⟨by decide, by decide, ?_⟩
  exact (c4_useExistingFile_tristate (fun s => s)
    [(gs "abc1234", [gs "t/say-abc1234.wav"])] (gs "say-abc1234.wav")
    (by decide) (gs "abc1234") (by decide)).1.mpr
    ⟨gs "t/say-abc1234.wav", by decide, by decide⟩

example : matchesArtifact (gs "concat-abc1234.wav") = true := by decide

example : matchesArtifact (gs "my-file.wav") = false := by decide

example : occCount (gs "abc1234") (gs "my-file-abc1234.mp3") = 1 := by decide

/-- C7 counterexample: for the wav target format the final artifact is
built by `buildCopyWav` and is named `<track-name>.wav` with no embedded
fingerprint, so it violates the filename-format law. -/
theorem c7_filename_format_counterexample :
    (buildCopyWav (gs "t/concat-abc1234.wav") (gs "my-file")).outputFile =
      gs "my-file.wav" ∧
    matchesArtifact ((buildCopyWav (gs "t/concat-abc1234.wav") (gs "my-file")).outputFile) =
      false ∧
    occCount (gs "abc1234")
      ((buildCopyWav (gs "t/concat-abc1234.wav") (gs "my-file")).outputFile) = 0 := by
  decide

theorem replLoop_no_occur {old new : GoStr} (fuel : Nat) {s : GoStr}
    (h : ¬ old <:+: s) : replLoop old new fuel s = s := by
  induction fuel generalizing s with
  | zero =>
    cases s with
    | nil => rfl
    | cons c t => rfl
  | succ fuel ih =>
    cases s with
    | nil => rfl
    | cons c t =>
      unfold replLoop
      rw [if_neg, ih]
      · intro hi
        exact h (List.infix_cons_iff.mpr (Or.inr hi))
      · rintro ⟨hp, -⟩
        exact h (List.infix_cons_iff.mpr
          (Or.inl (List.isPrefixOf_iff_prefix.mp hp)))

theorem infix_head_mem {c : Nat} {o' b : GoStr} (h : c :: o' <:+: b) : c ∈ b := by
  rcases h with ⟨u, v, rfl⟩
  simp

theorem replLoop_single {o' a b new : GoStr} (fuel : Nat)
    (h60a : (60 : Nat) ∉ a) (hb : (60 : Nat) ∉ b)
    (hfuel : a.length + 1 + b.length ≤ fuel) :
    replLoop (60 :: o') new fuel (a ++ (60 :: o') ++ b) = a ++ new ++ b := by
  induction a generalizing fuel with
  | nil =>
    rcases fuel with _ | fuel
    · omega
    rw [List.nil_append]
    show replLoop (60 :: o') new (fuel + 1) (60 :: (o' ++ b)) = new ++ b
    unfold replLoop
    rw [if_pos]
    · have hdrop : (60 :: (o' ++ b)).drop (60 :: o').length = b := by
        have he : (60 :: (o' ++ b)) = (60 :: o') ++ b := by simp
        rw [he]
        exact List.drop_left _ _
      rw [hdrop, replLoop_no_occur]
      intro hocc
      exact hb (infix_head_mem hocc)
    · constructor
      · apply List.isPrefixOf_iff_prefix.mpr
        exact ⟨b, by simp⟩
      · simp
  | cons c a ih =>
    rcases fuel with _ | fuel
    · simp at hfuel
    rw [List.cons_append, List.cons_append]
    unfold replLoop
    rw [if_neg]
    · rw [ih fuel (fun hm => h60a (List.mem_cons_of_mem _ hm)) (by simp at hfuel ⊢; omega)]
      simp
    · rintro ⟨hp, -⟩
      have hc : c = 60 := by
        have := List.isPrefixOf_iff_prefix.mp hp
        rcases List.cons_prefix_cons.mp this with ⟨heq, -⟩
        exact heq.symm
      exact h60a (hc ▸ List.mem_cons_self _ _)

theorem goReplaceAll_single {a b new : GoStr} (h60a : (60 : Nat) ∉ a)
    (h60b : (60 : Nat) ∉ b) :
    goReplaceAll (a ++ hashTok ++ b) hashTok new = a ++ new ++ b := by
  have htok : hashTok = 60 :: [104, 97, 115, 104, 62] := by decide
  unfold goReplaceAll
  rw [if_neg (by decide)]
  rw [htok]
  apply replLoop_single
  · exact h60a
  · exact h60b
  · simp
    omega

theorem findIdx?_middle {p : GoStr → Bool} {pre post : List GoStr} {x : GoStr}
    (hpre : ∀ a ∈ pre, p a = false) (hx : p x = true) :
    (pre ++ x :: post).findIdx? p = some pre.length := by
  induction pre with
  | nil =>
    rw [List.nil_append, List.findIdx?_cons, if_pos hx]
    rfl
  | cons a pre ih =>
    rw [List.cons_append, List.findIdx?_cons,
      if_neg (by rw [hpre a (List.mem_cons_self _ _)]; exact Bool.false_ne_true)]
    rw [List.findIdx?_succ, ih fun a ha => hpre a (List.mem_cons_of_mem _ ha)]
    rfl

theorem infix_iff_drop {t l : GoStr} : t <:+: l ↔ ∃ i, t <+: l.drop i := by
  constructor
  · rintro ⟨s, u, rfl⟩
    exact ⟨s.length, by simp⟩
  · rintro ⟨i, u, hu⟩
    exact ⟨l.take i, u, by rw [List.append_assoc, hu, List.take_append_drop]⟩

theorem filter_eq_singleton_of_unique {p : Nat → Bool} {N K : Nat} (hK : K < N)
    (hpK : p K = true) (huniq : ∀ i, i < N → p i = true → i = K) :
    (List.range N).filter p = [K] := by
  induction N with
  | zero => omega
  | succ N ih =>
    rw [List.range_succ, List.filter_append]
    by_cases hKN : K = N
    · have h1 : (List.range N).filter p = [] := by
        apply List.filter_eq_nil_iff.mpr
        intro i hi hpi
        have hiK := huniq i (Nat.lt_succ_of_lt (List.mem_range.mp hi)) hpi
        have hiN := List.mem_range.mp hi
        omega
      have hpN : p N = true := hKN ▸ hpK
      rw [h1, List.nil_append, show List.filter p [N] = [N] by simp [List.filter, hpN], hKN]
    · have hKlt : K < N := by omega
      have h2 : List.filter p [N] = [] := by
        apply List.filter_eq_nil_iff.mpr
        intro i hi hpi
        rcases List.mem_singleton.mp hi with rfl
        have := huniq i (Nat.lt_succ_self _) hpi
        omega
      rw [ih hKlt (fun i hi hpi => huniq i (Nat.lt_succ_of_lt hi) hpi), h2, List.append_nil]

theorem artifact_length {name h ext : GoStr} (hh7 : h.length = 7) :
    (name ++ 45 :: (h ++ 46 :: ext)).length = name.length + 9 + ext.length := by
  simp [hh7]
  omega

theorem artifact_drop {name h ext : GoStr} :
    (name ++ 45 :: (h ++ 46 :: ext)).drop (name.length + 1) = h ++ 46 :: ext := by
  rw [List.drop_append_eq_append_drop]
  rw [List.drop_eq_nil_of_le (by omega), List.nil_append,
    show name.length + 1 - name.length = 1 by omega]
  rfl

theorem artifact_get45 {name h ext : GoStr} :
    (name ++ 45 :: (h ++ 46 :: ext))[name.length]? = some 45 := by
  rw [List.getElem?_append_right (Nat.le_refl _)]
  simp

theorem artifact_get46 {name h ext : GoStr} (hh7 : h.length = 7) :
    (name ++ 45 :: (h ++ 46 :: ext))[name.length + 8]? = some 46 := by
  rw [show name.length + 8 = name.length + 1 + 7 by omega, ← List.getElem?_drop,
    artifact_drop, List.getElem?_append_right (by omega : h.length ≤ 7),
    show 7 - h.length = 0 by omega]
  simp

theorem occCount_unique {name h ext : GoStr} (hh7 : h.length = 7)
    (hhex : ∀ b ∈ h, isHexLowerByte b = true) (hextLen : ext.length ≤ 6)
    (hnsub : ¬ h <:+: name) :
    occCount h (name ++ 45 :: (h ++ 46 :: ext)) = 1 := by
  have hlenS := @artifact_length name h ext hh7
  have hp : h.isPrefixOf ((name ++ 45 :: (h ++ 46 :: ext)).drop (name.length + 1)) = true := by
    rw [artifact_drop]
    exact List.isPrefixOf_iff_prefix.mpr (List.prefix_append h _)
  have huniq : ∀ i, i < (name ++ 45 :: (h ++ 46 :: ext)).length + 1 →
      h.isPrefixOf ((name ++ 45 :: (h ++ 46 :: ext)).drop i) = true →
      i = name.length + 1 := by
    intro i hi hpi
    replace hpi : h <+: (name ++ 45 :: (h ++ 46 :: ext)).drop i :=
      List.isPrefixOf_iff_prefix.mp hpi
    have hlen7 : i + 7 ≤ (name ++ 45 :: (h ++ 46 :: ext)).length := by
      have hle := hpi.length_le
      rw [List.length_drop, hh7] at hle
      omega
    have heq : h = ((name ++ 45 :: (h ++ 46 :: ext)).drop i).take 7 := by
      rcases hpi with ⟨t, ht⟩
      rw [← ht]
      exact (List.take_left' hh7).symm
    by_cases hA : i + 7 ≤ name.length
    · exfalso
      apply hnsub
      apply infix_iff_drop.mpr ⟨i, ?_⟩
      have hds : (name ++ 45 :: (h ++ 46 :: ext)).drop i =
          name.drop i ++ 45 :: (h ++ 46 :: ext) := by
        rw [List.drop_append_eq_append_drop, show i - name.length = 0 by omega,
          List.drop_zero]
      rw [heq, hds, List.take_append_eq_append_take,
        show 7 - (name.drop i).length = 0 by rw [List.length_drop]; omega,
        List.take_zero, List.append_nil]
      exact take_isPre _ _
    · by_cases hB : i ≤ name.length
      · exfalso
        have hmem : (45 : Nat) ∈ h := by
          have hg : h[name.length - i]? = some 45 := by
            rw [heq, List.getElem?_take]
            rw [if_pos (by omega), List.getElem?_drop,
              show i + (name.length - i) = name.length by omega, artifact_get45]
          exact List.getElem?_mem hg
        exact absurd (hhex 45 hmem) (by decide)
      · by_cases hC : i = name.length + 1
        · exact hC
        · by_cases hD : i ≤ name.length + 8
          · exfalso
            have hmem : (46 : Nat) ∈ h := by
              have hg : h[name.length + 8 - i]? = some 46 := by
                rw [heq, List.getElem?_take]
                rw [if_pos (by omega), List.getElem?_drop,
                  show i + (name.length + 8 - i) = name.length + 8 by omega,
                  artifact_get46 hh7]
              exact List.getElem?_mem hg
            exact absurd (hhex 46 hmem) (by decide)
          · rw [hlenS] at hlen7
            omega
  unfold occCount
  rw [filter_eq_singleton_of_unique (by rw [hlenS]; omega) hp huniq]
  rfl

/-- C7 amended.  Filename-format law for the exec-style artifacts: for
the m4a and mp3 targets (and every intermediate with a placeholder
output path) the builder passes an output-path argument
`<dir>/<stem>-<hash>.<ext>`; `replaceHash` substitutes the
seven-lowercase-hex fingerprint, the node's output file is
`<stem>-<fingerprint>.<ext>`, it matches
`^.+-[0-9a-f]{7}\.[a-z0-9]+$`, and when the stem does not itself contain
the fingerprint the fingerprint is embedded exactly once.  (The wav
target is the exception recorded by the counterexample: its artifact
carries no fingerprint.) -/
theorem c7_filename_format_amended (hashFn : HashFn) (cmdStr dir name ext : GoStr)
    (argsPre argsPost : List GoStr)
    (hshape : ∀ s l, (hashFn s l).length = 7 ∧ ∀ b ∈ hashFn s l, isHexLowerByte b = true)
    (hname : name ≠ []) (h47name : (47 : Nat) ∉ name) (h60name : (60 : Nat) ∉ name)
    (h60dir : (60 : Nat) ∉ dir)
    (hextne : ext ≠ []) (hextAl : ∀ b ∈ ext, isLowerAlnumByte b = true)
    (hextLen : ext.length ≤ 6)
    (hpre : ∀ a ∈ argsPre, goContains a hashTok = false) :
    ∃ argsRep outFile hsh,
      replaceHash hashFn cmdStr
          (argsPre ++ (dir ++ 47 :: (name ++ 45 :: (hashTok ++ 46 :: ext))) :: argsPost) =
        some (argsRep, outFile, hsh) ∧
      outFile = name ++ 45 :: (hsh ++ 46 :: ext) ∧
      matchesArtifact outFile = true ∧
      (goContains name hsh = false → occCount hsh outFile = 1) := by
  have hh7 := (hshape cmdStr (argsBasePath
    (argsPre ++ (dir ++ 47 :: (name ++ 45 :: (hashTok ++ 46 :: ext))) :: argsPost))).1
  have hhex := (hshape cmdStr (argsBasePath
    (argsPre ++ (dir ++ 47 :: (name ++ 45 :: (hashTok ++ 46 :: ext))) :: argsPost))).2
  have hcont : goContains (dir ++ 47 :: (name ++ 45 :: (hashTok ++ 46 :: ext))) hashTok =
      true := by
    apply goContains_iff.mpr
    exact ⟨dir ++ 47 :: (name ++ [45]), 46 :: ext, by simp⟩
  have hfind : (argsPre ++ (dir ++ 47 :: (name ++ 45 :: (hashTok ++ 46 :: ext)))
      :: argsPost).findIdx? (fun a => goContains a hashTok) = some argsPre.length :=
    findIdx?_middle hpre hcont
  have hgetD : (argsPre ++ (dir ++ 47 :: (name ++ 45 :: (hashTok ++ 46 :: ext)))
      :: argsPost).getD argsPre.length [] =
      dir ++ 47 :: (name ++ 45 :: (hashTok ++ 46 :: ext)) := by
    rw [List.getD_eq_getElem?_getD, List.getElem?_append_right (Nat.le_refl _)]
    simp
  have h60A : (60 : Nat) ∉ dir ++ 47 :: (name ++ [45]) := by
    intro hm
    rcases List.mem_append.mp hm with hm | hm
    · exact h60dir hm
    · rcases List.mem_cons.mp hm with he | hm
      · exact absurd he (by decide)
      · rcases List.mem_append.mp hm with hm | hm
        · exact h60name hm
        · exact absurd (List.mem_singleton.mp hm) (by decide)
  have h60B : (60 : Nat) ∉ (46 : Nat) :: ext := by
    intro hm
    rcases List.mem_cons.mp hm with he | hm
    · exact absurd he (by decide)
    · exact absurd (hextAl 60 hm) (by decide)
  have hrep : goReplaceAll (dir ++ 47 :: (name ++ 45 :: (hashTok ++ 46 :: ext))) hashTok
      (hashFn cmdStr (argsBasePath
        (argsPre ++ (dir ++ 47 :: (name ++ 45 :: (hashTok ++ 46 :: ext))) :: argsPost))) =
      dir ++ 47 :: (name ++ 45 :: ((hashFn cmdStr (argsBasePath
        (argsPre ++ (dir ++ 47 :: (name ++ 45 :: (hashTok ++ 46 :: ext))) :: argsPost)))
        ++ 46 :: ext)) := by
    rw [show dir ++ 47 :: (name ++ 45 :: (hashTok ++ 46 :: ext)) =
      (dir ++ 47 :: (name ++ [45])) ++ hashTok ++ (46 :: ext) by simp]
    rw [goReplaceAll_single h60A h60B]
    simp
  have h47n : (47 : Nat) ∉ name ++ 45 :: ((hashFn cmdStr (argsBasePath
      (argsPre ++ (dir ++ 47 :: (name ++ 45 :: (hashTok ++ 46 :: ext))) :: argsPost)))
      ++ 46 :: ext) := by
    intro hm
    rcases List.mem_append.mp hm with hm | hm
    · exact h47name hm
    · rcases List.mem_cons.mp hm with he | hm
      · exact absurd he (by decide)
      · rcases List.mem_append.mp hm with hm | hm
        · exact absurd (hhex 47 hm) (by decide)
        · rcases List.mem_cons.mp hm with he | hm
          · exact absurd he (by decide)
          · exact absurd (hextAl 47 hm) (by decide)
  have hbase : goBase (dir ++ 47 :: (name ++ 45 :: ((hashFn cmdStr (argsBasePath
      (argsPre ++ (dir ++ 47 :: (name ++ 45 :: (hashTok ++ 46 :: ext))) :: argsPost)))
      ++ 46 :: ext))) =
      name ++ 45 :: ((hashFn cmdStr (argsBasePath
        (argsPre ++ (dir ++ 47 :: (name ++ 45 :: (hashTok ++ 46 :: ext))) :: argsPost)))
        ++ 46 :: ext) :=
    goBase_append (by simp) h47n
  have hmainEq : replaceHash hashFn cmdStr
      (argsPre ++ (dir ++ 47 :: (name ++ 45 :: (hashTok ++ 46 :: ext))) :: argsPost) =
      some ((argsPre ++ (dir ++ 47 :: (name ++ 45 :: (hashTok ++ 46 :: ext)))
            :: argsPost).set argsPre.length
          (dir ++ 47 :: (name ++ 45 :: ((hashFn cmdStr (argsBasePath
            (argsPre ++ (dir ++ 47 :: (name ++ 45 :: (hashTok ++ 46 :: ext)))
              :: argsPost))) ++ 46 :: ext))),
        name ++ 45 :: ((hashFn cmdStr (argsBasePath
          (argsPre ++ (dir ++ 47 :: (name ++ 45 :: (hashTok ++ 46 :: ext)))
            :: argsPost))) ++ 46 :: ext),
        hashFn cmdStr (argsBasePath
          (argsPre ++ (dir ++ 47 :: (name ++ 45 :: (hashTok ++ 46 :: ext)))
            :: argsPost))) := by
    unfold replaceHash
    simp only [hfind, hgetD, hrep, hbase]
  refine ⟨_, _, _, hmainEq, rfl, ?_, ?_⟩
  · apply List.any_eq_true.mpr
    refine ⟨name.length + 8, List.mem_range.mpr ?_, ?_⟩
    · rw [artifact_length hh7]
      have := List.length_pos.mpr hextne
      omega
    · simp only [Bool.and_eq_true, beq_iff_eq, decide_eq_true_eq]
      have hposn := List.length_pos.mpr hname
      have hpose := List.length_pos.mpr hextne
      refine ⟨⟨⟨⟨⟨?_, ?_⟩, ?_⟩, ?_⟩, ?_⟩, ?_⟩
      · rw [List.getD_eq_getElem?_getD, artifact_get46 hh7]
        rfl
      · rw [artifact_length hh7]
        omega
      · have hdropE : (name ++ 45 :: ((hashFn cmdStr (argsBasePath
            (argsPre ++ (dir ++ 47 :: (name ++ 45 :: (hashTok ++ 46 :: ext))) :: argsPost)))
            ++ 46 :: ext)).drop (name.length + 8 + 1) = ext := by
          rw [show name.length + 8 + 1 = name.length + 1 + 8 by omega, ← List.drop_drop,
            artifact_drop, List.drop_append_eq_append_drop,
            List.drop_eq_nil_of_le (by omega), List.nil_append,
            show 8 - (hashFn cmdStr (argsBasePath (argsPre ++ (dir ++ 47 ::
              (name ++ 45 :: (hashTok ++ 46 :: ext))) :: argsPost))).length = 1 by omega]
          rfl
        rw [hdropE]
        exact List.all_eq_true.mpr hextAl
      · omega
      · rw [show name.length + 8 - 8 = name.length by omega,
          List.getD_eq_getElem?_getD, artifact_get45]
        rfl
      · rw [show name.length + 8 - 7 = name.length + 1 by omega, artifact_drop,
          List.take_left' hh7]
        exact List.all_eq_true.mpr hhex
  · intro hnc
    apply occCount_unique hh7 hhex hextLen
    intro hinf
    rw [goContains_iff.mpr hinf] at hnc
    cases hnc

/-- C7 witness: an mp3 conversion of the track `my-file`; the output file
is `my-file-abc1234.mp3`, it matches the regex and embeds the
fingerprint exactly once. -/
theorem c7_filename_format_amended_witness :
    matchesArtifact (gs "my-file-abc1234.mp3") = true ∧
    occCount (gs "abc1234") (gs "my-file-abc1234.mp3") = 1 := by
  have hshape : ∀ s l, ((fun _ _ => gs "abc1234" : HashFn) s l).length = 7 ∧
      ∀ b ∈ (fun _ _ => gs "abc1234" : HashFn) s l, isHexLowerByte b = true := by
    intro s l
    constructor
    · show (gs "abc1234").length = 7
      decide
    · show ∀ b ∈ gs "abc1234", isHexLowerByte b = true
      decide
  rcases c7_filename_format_amended (fun _ _ => gs "abc1234") (gs "ffmpeg") (gs "out")
      (gs "my-file") (gs "mp3") [gs "-i", gs "t/concat-0a1b2c3.wav"] []
      hshape (by decide) (by decide) (by decide) (by decide) (by decide)
      (by decide) (by decide) (by decide)
    with ⟨argsRep, outFile, hsh, hmain, hout, hmatch, hocc⟩
  have hcalc : replaceHash (fun _ _ => gs "abc1234") (gs "ffmpeg")
      ([gs "-i", gs "t/concat-0a1b2c3.wav"] ++
        (gs "out" ++ 47 :: (gs "my-file" ++ 45 :: (hashTok ++ 46 :: gs "mp3"))) :: []) =
      some ([gs "-i", gs "t/concat-0a1b2c3.wav", gs "out/my-file-abc1234.mp3"],
        gs "my-file-abc1234.mp3", gs "abc1234") := by
    decide
  rw [hcalc] at hmain
  rcases hmain with ⟨rfl, rfl, rfl⟩
  exact ⟨hmatch, hocc (by decide)⟩

/-!
## Claim C5: orphan detection
-/

theorem rootNodesLoop_error {d : Dag} {cs : List Nat} (hbig : 1 < d.nodes.length) :
    ∀ ids : List Nat, (∃ i ∈ ids, i ∉ cs ∧ childrenOf d i = []) →
      ∃ nm, rootNodesLoop d cs ids = .error (.orphanedNode nm) := by
  intro ids
  induction ids with
  | nil =>
    rintro ⟨i, hi, -⟩
    cases hi
  | cons i0 rest ih =>
    rintro ⟨i, hi, hics, hich⟩
    rcases List.mem_cons.mp hi with rfl | hirest
    · unfold rootNodesLoop
      rw [if_neg hics, if_pos ⟨hbig, hich⟩]
      exact ⟨nameOf d i, rfl⟩
    · by_cases h0cs : i0 ∈ cs
      · unfold rootNodesLoop
        rw [if_pos h0cs]
        exact ih ⟨i, hirest, hics, hich⟩
      · by_cases h0orph : 1 < d.nodes.length ∧ childrenOf d i0 = []
        · unfold rootNodesLoop
          rw [if_neg h0cs, if_pos h0orph]
          exact ⟨nameOf d i0, rfl⟩
        · unfold rootNodesLoop
          rw [if_neg h0cs, if_neg h0orph]
          rcases ih ⟨i, hirest, hics, hich⟩ with ⟨nm, hnm⟩
          rw [hnm]
          exact ⟨nm, rfl⟩

theorem rootNodesLoop_single {d : Dag} {cs : List Nat} {i : Nat} (hics : i ∉ cs)
    (hcond : ¬(1 < d.nodes.length ∧ childrenOf d i = [])) :
    rootNodesLoop d cs [i] = .ok [i] := by
  unfold rootNodesLoop
  rw [if_neg hics, if_neg hcond]
  rfl

/-- C5.  Orphan detection: in a graph with more than one node, a node
with no parents (absent from every children list) and no children makes
`RunRootNodes` yield an orphaned-node error instead of results; a
well-formed acyclic graph with exactly one node has that sole node as
its root, which is run without an orphan error. -/
theorem c5_orphan_detection (d : Dag) :
    (1 < d.nodes.length →
      (∃ i, i < d.nodes.length ∧ i ∉ childSet d ∧ childrenOf d i = []) →
      ∃ nm, rootNodes d = .error (.orphanedNode nm)) ∧
    (d.nodes.length = 1 → WFDag d → Acyclic d → rootNodes d = .ok [0]) ∧
    (∀ (T : Type) (inst : Inhabited T) (g : RunGraph T) (fuel : Nat) (s0 : RunState T)
      (budget : Nat),
      (∀ e, rootNodes d = .error e →
        runRootNodesModel d g fuel s0 budget =
          yieldLoop [((default : T), some (.dagErr e))] budget) ∧
      (∀ roots, rootNodes d = .ok roots →
        runRootNodesModel d g fuel s0 budget =
          yieldLoop (computePairs g fuel roots s0) budget)) := by
  refine ⟨?_, ?_, ?_⟩
  · intro hbig ⟨i, hil, hics, hich⟩
    exact rootNodesLoop_error hbig (List.range d.nodes.length)
      ⟨i, List.mem_range.mpr hil, hics, hich⟩
  · intro hone hwf hacy
    have hch0 : childrenOf d 0 = [] := by
      apply List.eq_nil_iff_forall_not_mem.mpr
      intro c hc
      have hcv : c < d.nodes.length := by
        unfold childrenOf at hc
        rcases hn : d.nodes[0]? with _ | n0
        · rw [hn] at hc
          cases hc
        · rw [hn] at hc
          exact hwf n0 (List.getElem?_mem hn) c hc
      have hc0 : c = 0 := by omega
      subst hc0
      exact hacy ⟨0, 0, hc, Reach.refl 0⟩
    have hcs : childSet d = [] := by
      apply List.eq_nil_iff_forall_not_mem.mpr
      intro c hc
      unfold childSet at hc
      rw [List.mem_flatten] at hc
      rcases hc with ⟨l, hl, hcl⟩
      rw [List.mem_map] at hl
      rcases hl with ⟨n0, hn0, rfl⟩
      rcases hns : d.nodes with _ | ⟨nd, rest⟩
      · rw [hns] at hn0
        cases hn0
      · have hrest : rest = [] := by
          have hlen := hone
          rw [hns, List.length_cons] at hlen
          exact List.length_eq_zero.mp (by omega)
        subst hrest
        rcases List.mem_singleton.mp (hns ▸ hn0) with rfl
        have : n0.children = childrenOf d 0 := by
          unfold childrenOf
          rw [hns]
          rfl
        rw [this, hch0] at hcl
        cases hcl
    unfold rootNodes
    rw [hcs, hone, show List.range 1 = [0] by decide]
    exact rootNodesLoop_single (List.not_mem_nil 0) (by rintro ⟨h1, -⟩; omega)
  · intro T inst g fuel s0 budget
    constructor
    · intro e he
      unfold runRootNodesModel
      rw [he]
    · intro roots hr
      unfold runRootNodesModel
      rw [hr]

/-- C5 witness: the three-node graph of the package's own orphan test
(`sum` with children `source1`, `source2`, plus the orphan) errs, and a
single-node graph has its sole node as root. -/
theorem c5_orphan_detection_witness :
    (∃ nm, rootNodes (applyOps emptyDag
      [.chain [⟨gs "sum", gs "sum"⟩, ⟨gs "s1", gs "s1"⟩],
       .chain [⟨gs "sum", gs "sum"⟩, ⟨gs "s2", gs "s2"⟩],
       .chain [⟨gs "orphaned", gs "orphaned"⟩]]) = .error (.orphanedNode nm)) ∧
    rootNodes (applyOps emptyDag [.chain [⟨gs "solo", gs "solo"⟩]]) = .ok [0] := by
  constructor
  · apply (c5_orphan_detection _).1
    · decide
    · exact ⟨3, by decide, by decide, by decide⟩
  · have heq : applyOps emptyDag [.chain [⟨gs "solo", gs "solo"⟩]] =
        { nodes := [{ name := gs "solo", hash := gs "solo", children := [] }] } := by
      decide
    rw [heq]
    apply (c5_orphan_detection _).2.1
    · rfl
    · intro n hn c hc
      rcases List.mem_singleton.mp hn with rfl
      cases hc
    · rintro ⟨a, b, hmem, -⟩
      have hch : childrenOf
          { nodes := [{ name := gs "solo", hash := gs "solo", children := ([] : List Nat) }] }
          a = [] := by
        rcases a with _ | a
        · rfl
        · rfl
      rw [hch] at hmem
      cases hmem

/-!
## Claim C6: order preservation of result streaming
-/

theorem computePairs_length {T : Type} [Inhabited T] (g : RunGraph T) (fuel : Nat) :
    ∀ (roots : List Nat) (s : RunState T),
      (computePairs g fuel roots s).length = roots.length := by
  intro roots
  induction roots with
  | nil =>
    intro s
    rfl
  | cons n rest ih =>
    intro s
    unfold computePairs
    rcases hr : runNode g fuel n s with ⟨s1, ov⟩
    rcases ov with _ | v
    · simp [ih]
    · simp [ih]

theorem yieldLoop_isPre {T E : Type} :
    ∀ (pairs : List (T × Option E)) (budget : Nat), yieldLoop pairs budget <+: pairs := by
  intro pairs
  induction pairs with
  | nil =>
    intro budget
    exact List.prefix_refl _
  | cons p rest ih =>
    intro budget
    rcases budget with _ | b
    · exact List.nil_prefix
    · unfold yieldLoop
      rcases hp : p.2 with _ | e
      · exact List.cons_prefix_cons.mpr ⟨rfl, ih b⟩
      · exact List.cons_prefix_cons.mpr ⟨rfl, List.nil_prefix⟩

theorem yieldLoop_length_le {T E : Type} :
    ∀ (pairs : List (T × Option E)) (budget : Nat),
      (yieldLoop pairs budget).length ≤ budget := by
  intro pairs
  induction pairs with
  | nil =>
    intro budget
    simp [yieldLoop]
  | cons p rest ih =>
    intro budget
    rcases budget with _ | b
    · simp [yieldLoop]
    · unfold yieldLoop
      rcases hp : p.2 with _ | e
      · have := ih b
        simp
        omega
      · simp

theorem yieldLoop_stops_at_error {T E : Type} :
    ∀ (pairs : List (T × Option E)) (budget : Nat) (j : Nat) (pr : T × Option E),
      (yieldLoop pairs budget)[j]? = some pr →
      j + 1 < (yieldLoop pairs budget).length → pr.2 = none := by
  intro pairs
  induction pairs with
  | nil =>
    intro budget j pr hj _
    simp [yieldLoop] at hj
  | cons p rest ih =>
    intro budget j pr hj hlt
    rcases budget with _ | b
    · simp [yieldLoop] at hj
    · unfold yieldLoop at hj hlt
      rcases hp : p.2 with _ | e
      · rw [hp] at hj hlt
        rcases j with _ | j
        · simp at hj
          rw [← hj, hp]
        · rw [List.getElem?_cons_succ] at hj
          simp at hlt
          exact ih b j pr hj (by omega)
      · rw [hp] at hj hlt
        simp at hlt
    -- (the erroring pair is yielded last: length 1 contradicts j + 1 < 1)

theorem yieldLoop_full {T E : Type} :
    ∀ (pairs : List (T × Option E)) (budget : Nat), pairs.length ≤ budget →
      (∀ p ∈ pairs, p.2 = none) → yieldLoop pairs budget = pairs := by
  intro pairs
  induction pairs with
  | nil =>
    intro budget _ _
    rcases budget with _ | b
    · rfl
    · rfl
  | cons p rest ih =>
    intro budget hb hnone
    rcases budget with _ | b
    · simp at hb
    · unfold yieldLoop
      rw [hnone p (List.mem_cons_self _ _)]
      rw [ih b (by simp at hb ⊢; omega) fun q hq => hnone q (List.mem_cons_of_mem _ hq)]

/-- C6.  Order preservation of result streaming: `runNodes` yields one
pair per root, in root-index order — the yielded sequence is a prefix of
the index-ordered pair list computed for the roots — truncated by the
consumer budget (a consumer stop or context cancellation), every yielded
pair but the last is error-free (yielding stops at the first yielded
error), and with a sufficient budget and no errors every root's pair is
yielded.  (Completions are linearised in spawn order: the monitor loop
waits for `done[i]` in index order, so a root that completes early is
still yielded after all earlier-indexed roots.) -/
theorem c6_order_preservation {T : Type} [Inhabited T] (g : RunGraph T) (fuel : Nat)
    (roots : List Nat) (s0 : RunState T) (budget : Nat) :
    (computePairs g fuel roots s0).length = roots.length ∧
    runNodesModel g fuel roots s0 budget <+: computePairs g fuel roots s0 ∧
    (runNodesModel g fuel roots s0 budget).length ≤ budget ∧
    (∀ j pr, (runNodesModel g fuel roots s0 budget)[j]? = some pr →
      j + 1 < (runNodesModel g fuel roots s0 budget).length → pr.2 = none) ∧
    (roots.length ≤ budget → (∀ p ∈ computePairs g fuel roots s0, p.2 = none) →
      runNodesModel g fuel roots s0 budget = computePairs g fuel roots s0) := by
  refine ⟨computePairs_length g fuel roots s0, yieldLoop_isPre _ _, yieldLoop_length_le _ _,
    yieldLoop_stops_at_error _ _, ?_⟩
  intro hb hnone
  unfold runNodesModel
  exact yieldLoop_full _ _ (by rw [computePairs_length]; exact hb) hnone

/-- C6 witness: three roots where the second fails; the stream yields the
first root's result, then the failing pair, and stops — in index
order. -/
theorem c6_order_preservation_witness :
    runNodesModel
        (⟨fun _ => [], fun n _ => if n = 1 then none else some (10 * (n + 1))⟩ : RunGraph Nat)
        1 [0, 1, 2] (zeroState Nat) 5 =
      [(10, none), (0, some .nodeErr)] ∧
    runNodesModel
        (⟨fun _ => [], fun n _ => if n = 1 then none else some (10 * (n + 1))⟩ : RunGraph Nat)
        1 [0, 1, 2] (zeroState Nat) 5 <+:
      computePairs
        (⟨fun _ => [], fun n _ => if n = 1 then none else some (10 * (n + 1))⟩ : RunGraph Nat)
        1 [0, 1, 2] (zeroState Nat) := by
  exact ⟨by decide, (c6_order_preservation _ 1 [0, 1, 2] (zeroState Nat) 5).2.1⟩

theorem runChildrenFold_cons_unfold {T : Type}
    (step : Nat → RunState T → RunState T × Option T) (c : Nat) (cs : List Nat)
    (s : RunState T) :
    runChildrenFold step (c :: cs) s =
      match step c s with
      | (s1, none) => (s1, none)
      | (s1, some v) =>
        match runChildrenFold step cs s1 with
        | (s2, none) => (s2, none)
        | (s2, some vs) => (s2, some (v :: vs)) := rfl

theorem runChildrenFold_cons_none {T : Type}
    {step : Nat → RunState T → RunState T × Option T} {c : Nat} {cs : List Nat}
    {s s1 : RunState T} (hs : step c s = (s1, none)) :
    runChildrenFold step (c :: cs) s = (s1, none) := by
  rw [runChildrenFold_cons_unfold, hs]

theorem runChildrenFold_cons_some {T : Type}
    {step : Nat → RunState T → RunState T × Option T} {c : Nat} {cs : List Nat}
    {s s1 : RunState T} {v : T} (hs : step c s = (s1, some v)) :
    runChildrenFold step (c :: cs) s =
      match runChildrenFold step cs s1 with
      | (s2, none) => (s2, none)
      | (s2, some vs) => (s2, some (v :: vs)) := by
  rw [runChildrenFold_cons_unfold, hs]

theorem runNode_succ_unfold {T : Type} (g : RunGraph T) (fuel n : Nat) (s : RunState T) :
    runNode g (fuel + 1) n s =
      if s.executed n then (s, some (s.result n))
      else
        match runChildrenFold (fun c s2 => runNode g fuel c s2) (g.children n) s with
        | (s1, none) => (s1, none)
        | (s1, some results) =>
          match g.runFunc n results with
          | none => ({ s1 with calls := fupd s1.calls n (s1.calls n + 1) }, none)
          | some r =>
            ({ s1 with
                calls := fupd s1.calls n (s1.calls n + 1)
                executed := fupd s1.executed n true
                result := fupd s1.result n r }, some r) := rfl

theorem runNode_succ_none {T : Type} {g : RunGraph T} {fuel n : Nat} {s s1 : RunState T}
    (hex : s.executed n = false)
    (hf : runChildrenFold (fun c s2 => runNode g fuel c s2) (g.children n) s = (s1, none)) :
    runNode g (fuel + 1) n s = (s1, none) := by
  rw [runNode_succ_unfold, if_neg (by rw [hex]; exact Bool.false_ne_true), hf]

theorem runNode_succ_some {T : Type} {g : RunGraph T} {fuel n : Nat} {s s1 : RunState T}
    {results : List T} (hex : s.executed n = false)
    (hf : runChildrenFold (fun c s2 => runNode g fuel c s2) (g.children n) s =
      (s1, some results)) :
    runNode g (fuel + 1) n s =
      match g.runFunc n results with
      | none => ({ s1 with calls := fupd s1.calls n (s1.calls n + 1) }, none)
      | some r =>
        ({ s1 with
            calls := fupd s1.calls n (s1.calls n + 1)
            executed := fupd s1.executed n true
            result := fupd s1.result n r }, some r) := by
  rw [runNode_succ_unfold, if_neg (by rw [hex]; exact Bool.false_ne_true), hf]

theorem runNode_untouched {T : Type} {g : RunGraph T} {rank : Nat → Nat}
    (hr : RankedDag g rank) :
    ∀ (fuel n : Nat) (s : RunState T) (m : Nat), rank n < rank m →
      (runNode g fuel n s).1.executed m = s.executed m ∧
      (runNode g fuel n s).1.calls m = s.calls m := by
  intro fuel
  induction fuel with
  | zero =>
    intro n s m _
    exact ⟨rfl, rfl⟩
  | succ fuel ih =>
    intro n s m hnm
    have hfold : ∀ (cs : List Nat) (s0 : RunState T), (∀ c ∈ cs, rank c < rank m) →
        (runChildrenFold (fun c s2 => runNode g fuel c s2) cs s0).1.executed m =
          s0.executed m ∧
        (runChildrenFold (fun c s2 => runNode g fuel c s2) cs s0).1.calls m =
          s0.calls m := by
      intro cs
      induction cs with
      | nil =>
        intro s0 _
        exact ⟨rfl, rfl⟩
      | cons c cs ihc =>
        intro s0 hcs
        have hc := ih c s0 m (hcs c (List.mem_cons_self _ _))
        rcases hrc : runNode g fuel c s0 with ⟨sc, ov⟩
        rw [hrc] at hc
        rcases ov with _ | v
        · rw [runChildrenFold_cons_none hrc]
          exact hc
        · rw [runChildrenFold_cons_some hrc]
          have h2 := ihc sc fun c2 hc2 => hcs c2 (List.mem_cons_of_mem _ hc2)
          rcases hf : runChildrenFold (fun c s2 => runNode g fuel c s2) cs sc
            with ⟨s2, ov2⟩
          rw [hf] at h2
          rcases ov2 with _ | vs
          · exact ⟨h2.1.trans hc.1, h2.2.trans hc.2⟩
          · exact ⟨h2.1.trans hc.1, h2.2.trans hc.2⟩
    by_cases hex : s.executed n = true
    · unfold runNode
      rw [if_pos hex]
      exact ⟨rfl, rfl⟩
    · rw [Bool.not_eq_true] at hex
      have hch := hfold (g.children n) s fun c hc => Nat.lt_trans (hr n c hc) hnm
      rcases hf : runChildrenFold (fun c s2 => runNode g fuel c s2) (g.children n) s
        with ⟨s1, ov⟩
      rw [hf] at hch
      have hmn : m ≠ n := by
        intro hEq
        rw [hEq] at hnm
        omega
      rcases ov with _ | results
      · rw [runNode_succ_none hex hf]
        exact hch
      · rw [runNode_succ_some hex hf]
        rcases hrf : g.runFunc n results with _ | r
        · refine ⟨hch.1, ?_⟩
          show fupd s1.calls n (s1.calls n + 1) m = s.calls m
          unfold fupd
          rw [if_neg hmn]
          exact hch.2
        · constructor
          · show fupd s1.executed n true m = s.executed m
            unfold fupd
            rw [if_neg hmn]
            exact hch.1
          · show fupd s1.calls n (s1.calls n + 1) m = s.calls m
            unfold fupd
            rw [if_neg hmn]
            exact hch.2

theorem runNode_callsOK {T : Type} {g : RunGraph T} {rank : Nat → Nat}
    (hr : RankedDag g rank) (hsucc : ∀ n vals, (g.runFunc n vals).isSome = true) :
    ∀ (fuel n : Nat) (s : RunState T), CallsOK s → CallsOK (runNode g fuel n s).1 := by
  intro fuel
  induction fuel with
  | zero =>
    intro n s h
    exact h
  | succ fuel ih =>
    intro n s hOK
    have hfold : ∀ (cs : List Nat) (s0 : RunState T), CallsOK s0 →
        CallsOK (runChildrenFold (fun c s2 => runNode g fuel c s2) cs s0).1 := by
      intro cs
      induction cs with
      | nil =>
        intro s0 h
        exact h
      | cons c cs ihc =>
        intro s0 hOK0
        have hc := ih c s0 hOK0
        rcases hrc : runNode g fuel c s0 with ⟨sc, ov⟩
        rw [hrc] at hc
        rcases ov with _ | v
        · rw [runChildrenFold_cons_none hrc]
          exact hc
        · rw [runChildrenFold_cons_some hrc]
          have h2 := ihc sc hc
          rcases hf : runChildrenFold (fun c s2 => runNode g fuel c s2) cs sc
            with ⟨s2, ov2⟩
          rw [hf] at h2
          rcases ov2 with _ | vs
          · exact h2
          · exact h2
    have huntouched : ∀ (cs : List Nat) (s0 : RunState T) (m : Nat),
        (∀ c ∈ cs, rank c < rank m) →
        (runChildrenFold (fun c s2 => runNode g fuel c s2) cs s0).1.executed m =
          s0.executed m ∧
        (runChildrenFold (fun c s2 => runNode g fuel c s2) cs s0).1.calls m =
          s0.calls m := by
      intro cs
      induction cs with
      | nil =>
        intro s0 m _
        exact ⟨rfl, rfl⟩
      | cons c cs ihc =>
        intro s0 m hcs
        have hc := runNode_untouched hr fuel c s0 m (hcs c (List.mem_cons_self _ _))
        rcases hrc : runNode g fuel c s0 with ⟨sc, ov⟩
        rw [hrc] at hc
        rcases ov with _ | v
        · rw [runChildrenFold_cons_none hrc]
          exact hc
        · rw [runChildrenFold_cons_some hrc]
          have h2 := ihc sc m fun c2 hc2 => hcs c2 (List.mem_cons_of_mem _ hc2)
          rcases hf : runChildrenFold (fun c s2 => runNode g fuel c s2) cs sc
            with ⟨s2, ov2⟩
          rw [hf] at h2
          rcases ov2 with _ | vs
          · exact ⟨h2.1.trans hc.1, h2.2.trans hc.2⟩
          · exact ⟨h2.1.trans hc.1, h2.2.trans hc.2⟩
    by_cases hex : s.executed n = true
    · unfold runNode
      rw [if_pos hex]
      exact hOK
    · rw [Bool.not_eq_true] at hex
      have hchOK := hfold (g.children n) s hOK
      have hchU := huntouched (g.children n) s n fun c hc => hr n c hc
      rcases hf : runChildrenFold (fun c s2 => runNode g fuel c s2) (g.children n) s
        with ⟨s1, ov⟩
      rw [hf] at hchOK hchU
      have hexec1 : s1.executed n = false := hchU.1.trans hex
      have hcalls1 : s1.calls n = 0 := (hchOK n).2 hexec1
      rcases ov with _ | results
      · rw [runNode_succ_none hex hf]
        exact hchOK
      · rw [runNode_succ_some hex hf]
        rcases hrf : g.runFunc n results with _ | r
        · exfalso
          have hs := hsucc n results
          rw [hrf] at hs
          cases hs
        · intro m
          by_cases hmn : m = n
          · subst hmn
            constructor
            · intro _
              show fupd s1.calls m (s1.calls m + 1) m = 1
              unfold fupd
              rw [if_pos rfl, hcalls1]
            · intro hexm
              have hxm : fupd s1.executed m true m = true := by
                unfold fupd
                rw [if_pos rfl]
              rw [show (({ s1 with
                  calls := fupd s1.calls m (s1.calls m + 1)
                  executed := fupd s1.executed m true
                  result := fupd s1.result m r } : RunState T), some r).1.executed m = true
                from hxm] at hexm
              cases hexm
          · have hxm : fupd s1.executed n true m = s1.executed m := by
              unfold fupd
              rw [if_neg hmn]
            constructor
            · intro hexm
              show fupd s1.calls n (s1.calls n + 1) m = 1
              unfold fupd
              rw [if_neg hmn]
              exact (hchOK m).1 (hxm ▸ hexm)
            · intro hexm
              show fupd s1.calls n (s1.calls n + 1) m = 0
              unfold fupd
              rw [if_neg hmn]
              exact (hchOK m).2 (hxm ▸ hexm)

theorem runSeq_callsOK {T : Type} {g : RunGraph T} {rank : Nat → Nat}
    (hr : RankedDag g rank) (hsucc : ∀ n vals, (g.runFunc n vals).isSome = true)
    (fuel : Nat) :
    ∀ (roots : List Nat) (s : RunState T), CallsOK s → CallsOK (runSeq g fuel roots s) := by
  intro roots
  induction roots with
  | nil =>
    intro s h
    exact h
  | cons n rest ih =>
    intro s h
    exact ih _ (runNode_callsOK hr hsucc fuel n s h)

theorem zeroState_callsOK {T : Type} [Inhabited T] : CallsOK (zeroState T) := by
  intro m
  constructor
  · intro h
    cases h
  · intro _
    rfl

/-- C2 counterexample: with two roots sharing a leaf whose `runFunc`
errors, the leaf's `runFunc` is invoked twice in one run — the executed
flag is only set on success, so a failed node is re-run by its next
parent. -/
theorem c2_single_exec_counterexample :
    (runSeq c2gFail 3 [0, 1] (zeroState Nat)).calls 2 = 2 := by
  rfl

/-- C2 (amended): in one run over any roots from the clean state, a
node's `runFunc` is invoked at most once — provided every `runFunc`
invocation succeeds (a failed node is re-run by later parents, see the
counterexample); and evaluating an already-executed node returns the
memoized result without touching the state. -/
theorem c2_single_exec_amended {T : Type} [Inhabited T] {g : RunGraph T}
    {rank : Nat → Nat} (hr : RankedDag g rank)
    (hsucc : ∀ n vals, (g.runFunc n vals).isSome = true)
    (fuel : Nat) (roots : List Nat) (n : Nat) :
    (runSeq g fuel roots (zeroState T)).calls n ≤ 1 ∧
    ∀ (s : RunState T), s.executed n = true →
      runNode g (fuel + 1) n s = (s, some (s.result n)) := by
  constructor
  · have h := runSeq_callsOK hr hsucc fuel roots (zeroState T) zeroState_callsOK n
    by_cases hb : (runSeq g fuel roots (zeroState T)).executed n = true
    · rw [h.1 hb]
    · rw [Bool.not_eq_true] at hb
      rw [h.2 hb]
      exact Nat.zero_le 1
  · intro s hex
    rw [runNode_succ_unfold, if_pos hex]

/-- C2 witness: on the shared-leaf graph with a total `runFunc`, the
leaf's counter is at most 1 after running both roots, and a memoized
state is returned as-is. -/
theorem c2_single_exec_amended_witness :
    (runSeq c2g 3 [0, 1] (zeroState Nat)).calls 2 ≤ 1 ∧
    (runSeq c2g 3 [0, 1] (zeroState Nat)).calls 2 = 1 := by
  have hr : RankedDag c2g c2rank := by
    intro n c hc
    by_cases hn : n = 2
    · rw [hn] at hc
      simp only [c2g, if_pos rfl] at hc
      cases hc
    · simp only [c2g, if_neg hn, List.mem_singleton] at hc
      rw [hc]
      show c2rank 2 < c2rank n
      simp only [c2rank, if_pos rfl, if_neg hn]
      exact Nat.zero_lt_one
  have hsucc : ∀ n vals, (c2g.runFunc n vals).isSome = true := fun _ _ => rfl
  refine ⟨(c2_single_exec_amended hr hsucc 3 [0, 1] 2).1, ?_⟩
  rfl

theorem reach_trans {d : Dag} {x y z : Nat} (h1 : Reach d x y) (h2 : Reach d y z) :
    Reach d x z := by
  induction h1 with
  | refl n => exact h2
  | step hb _ ih => exact Reach.step hb (ih h2)

theorem reach_mono_children {d1 d2 : Dag} (h : ∀ i, childrenOf d1 i = childrenOf d2 i)
    {x y : Nat} (hr : Reach d1 x y) : Reach d2 x y := by
  induction hr with
  | refl n => exact Reach.refl n
  | step hb _ ih => exact Reach.step (h _ ▸ hb) ih

theorem findIdx?_some_spec {α : Type} {p : α → Bool} :
    ∀ {l : List α} {i : Nat}, l.findIdx? p = some i →
      i < l.length ∧ ∃ a, l[i]? = some a ∧ p a = true := by
  intro l
  induction l with
  | nil =>
    intro i h
    cases h
  | cons a l ih =>
    intro i h
    rw [List.findIdx?_cons] at h
    by_cases hp : p a = true
    · rw [if_pos hp] at h
      cases h
      exact ⟨Nat.succ_pos _, a, List.getElem?_cons_zero, hp⟩
    · rw [if_neg hp, List.findIdx?_succ] at h
      rcases hl : l.findIdx? p with _ | j
      · rw [hl] at h
        cases h
      · rw [hl] at h
        cases h
        obtain ⟨hlt, b, hb, hpb⟩ := ih hl
        refine ⟨Nat.succ_lt_succ hlt, b, ?_, hpb⟩
        show (a :: l)[j + 1]? = some b
        rw [List.getElem?_cons_succ]
        exact hb

theorem findIdx?_none_spec {α : Type} {p : α → Bool} :
    ∀ {l : List α}, l.findIdx? p = none → ∀ a ∈ l, p a = false := by
  intro l
  induction l with
  | nil =>
    intro _ a ha
    cases ha
  | cons a l ih =>
    intro h b hb
    rw [List.findIdx?_cons] at h
    by_cases hp : p a = true
    · rw [if_pos hp] at h
      cases h
    · rw [if_neg hp, List.findIdx?_succ] at h
      rcases hl : l.findIdx? p with _ | j
      · rcases List.mem_cons.mp hb with rfl | hbl
        · exact Bool.not_eq_true _ ▸ hp
        · exact ih hl b hbl
      · rw [hl] at h
        cases h

theorem findIdx?_map_hash {d : Dag} (hnd : HashesNodup d) :
    ∀ {i : Nat} {h : GoStr}, (d.nodes.map DagNode.hash)[i]? = some h →
      d.nodes.findIdx? (fun x => x.hash == h) = some i := by
  have main : ∀ (l : List DagNode), (l.map DagNode.hash).Nodup →
      ∀ (i : Nat) (h : GoStr), (l.map DagNode.hash)[i]? = some h →
        l.findIdx? (fun x => x.hash == h) = some i := by
    intro l
    induction l with
    | nil =>
      intro _ i h hm
      rw [List.map_nil, List.getElem?_eq_none (by rw [List.length_nil]; exact Nat.zero_le i)]
        at hm
      cases hm
    | cons a l ih =>
      intro hnd i h hm
      rw [List.map_cons, List.nodup_cons] at hnd
      rw [List.findIdx?_cons]
      rcases i with _ | j
      · rw [List.map_cons, List.getElem?_cons_zero] at hm
        cases hm
        rw [if_pos (beq_self_eq_true _)]
      · rw [List.map_cons, List.getElem?_cons_succ] at hm
        have hmem : h ∈ l.map DagNode.hash := List.getElem?_mem hm
        have hne : a.hash ≠ h := fun he => hnd.1 (he ▸ hmem)
        rw [if_neg (by simpa using hne), List.findIdx?_succ, ih hnd.2 j h hm]
        rfl
  intro i h hi
  exact main d.nodes hnd i h hi

theorem addNode_eq_found {d : Dag} {n : GoNode} {i : Nat}
    (hf : d.nodes.findIdx? (fun m => m.hash == n.hash) = some i) :
    addNode d n = (d, i) := by
  unfold addNode
  rw [hf]

theorem addNode_eq_new {d : Dag} {n : GoNode}
    (hf : d.nodes.findIdx? (fun m => m.hash == n.hash) = none) :
    addNode d n =
      ({ nodes := d.nodes ++ [{ name := n.name, hash := n.hash, children := [] }] },
        d.nodes.length) := by
  unfold addNode
  rw [hf]

theorem addNode_split (d : Dag) (n : GoNode) :
    (addNode d n = (d, (addNode d n).2) ∧
      (addNode d n).2 < d.nodes.length ∧
      (d.nodes.map DagNode.hash)[(addNode d n).2]? = some n.hash) ∨
    (addNode d n =
      ({ nodes := d.nodes ++ [{ name := n.name, hash := n.hash, children := [] }] },
        d.nodes.length) ∧
      n.hash ∉ d.nodes.map DagNode.hash) := by
  rcases hf : d.nodes.findIdx? (fun m => m.hash == n.hash) with _ | i
  · right
    refine ⟨addNode_eq_new hf, ?_⟩
    intro hmem
    obtain ⟨m, hm, hmh⟩ := List.mem_map.mp hmem
    have hfalse := findIdx?_none_spec hf m hm
    rw [hmh, beq_self_eq_true] at hfalse
    cases hfalse
  · left
    have he := addNode_eq_found hf
    obtain ⟨hlt, a, ha, hpa⟩ := findIdx?_some_spec hf
    refine ⟨?_, ?_, ?_⟩
    · rw [he]
    · rw [he]
      exact hlt
    · rw [he, List.getElem?_map, ha]
      show some a.hash = some n.hash
      rw [eq_of_beq hpa]

theorem childrenOf_append_leaf (d : Dag) (m : DagNode) (hm : m.children = []) (i : Nat) :
    childrenOf { nodes := d.nodes ++ [m] } i = childrenOf d i := by
  show (match (d.nodes ++ [m])[i]? with | some n => n.children | none => []) =
    (match d.nodes[i]? with | some n => n.children | none => [])
  rcases Nat.lt_trichotomy i d.nodes.length with hlt | heq | hgt
  · rw [List.getElem?_append_left hlt]
  · rw [List.getElem?_append_right (Nat.le_of_eq heq.symm), heq, Nat.sub_self,
      List.getElem?_cons_zero, List.getElem?_eq_none (Nat.le_refl d.nodes.length)]
    exact hm
  · rw [List.getElem?_eq_none (by rw [List.length_append, List.length_singleton]; omega),
      List.getElem?_eq_none (Nat.le_of_lt hgt)]

theorem addNode_childrenOf (d : Dag) (n : GoNode) (i : Nat) :
    childrenOf (addNode d n).1 i = childrenOf d i := by
  rcases addNode_split d n with ⟨heq, _, _⟩ | ⟨heq, _⟩
  · rw [show (addNode d n).1 = d from congrArg Prod.fst heq]
  · rw [show (addNode d n).1 =
      { nodes := d.nodes ++ [{ name := n.name, hash := n.hash, children := [] }] }
      from congrArg Prod.fst heq]
    exact childrenOf_append_leaf d _ rfl i

theorem addNode_len_le (d : Dag) (n : GoNode) :
    d.nodes.length ≤ (addNode d n).1.nodes.length := by
  rcases addNode_split d n with ⟨heq, _, _⟩ | ⟨heq, _⟩
  · rw [show (addNode d n).1 = d from congrArg Prod.fst heq]
  · rw [show (addNode d n).1 =
      { nodes := d.nodes ++ [{ name := n.name, hash := n.hash, children := [] }] }
      from congrArg Prod.fst heq]
    rw [show ({ nodes := d.nodes ++ [_] } : Dag).nodes = d.nodes ++ [_] from rfl,
      List.length_append]
    omega

theorem addNode_id_lt (d : Dag) (n : GoNode) :
    (addNode d n).2 < (addNode d n).1.nodes.length := by
  rcases addNode_split d n with ⟨heq, hlt, _⟩ | ⟨heq, _⟩
  · rw [show (addNode d n).1 = d from congrArg Prod.fst heq]
    exact hlt
  · rw [show (addNode d n).1 =
      { nodes := d.nodes ++ [{ name := n.name, hash := n.hash, children := [] }] }
      from congrArg Prod.fst heq,
      show (addNode d n).2 = d.nodes.length from congrArg Prod.snd heq]
    rw [show ({ nodes := d.nodes ++ [_] } : Dag).nodes = d.nodes ++ [_] from rfl,
      List.length_append, List.length_singleton]
    omega

theorem addNode_hash_at (d : Dag) (n : GoNode) :
    ((addNode d n).1.nodes.map DagNode.hash)[(addNode d n).2]? = some n.hash := by
  rcases addNode_split d n with ⟨heq, _, hh⟩ | ⟨heq, _⟩
  · rw [show (addNode d n).1 = d from congrArg Prod.fst heq]
    exact hh
  · rw [show (addNode d n).1 =
      { nodes := d.nodes ++ [{ name := n.name, hash := n.hash, children := [] }] }
      from congrArg Prod.fst heq,
      show (addNode d n).2 = d.nodes.length from congrArg Prod.snd heq]
    rw [show ({ nodes := d.nodes ++ [_] } : Dag).nodes = d.nodes ++ [_] from rfl,
      List.map_append, List.getElem?_append_right (by rw [List.length_map]),
      List.length_map, Nat.sub_self]
    rfl

theorem addNode_hash_keep {d : Dag} (n : GoNode) {i : Nat} (hi : i < d.nodes.length) :
    ((addNode d n).1.nodes.map DagNode.hash)[i]? = (d.nodes.map DagNode.hash)[i]? := by
  rcases addNode_split d n with ⟨heq, _, _⟩ | ⟨heq, _⟩
  · rw [show (addNode d n).1 = d from congrArg Prod.fst heq]
  · rw [show (addNode d n).1 =
      { nodes := d.nodes ++ [{ name := n.name, hash := n.hash, children := [] }] }
      from congrArg Prod.fst heq]
    rw [show ({ nodes := d.nodes ++ [_] } : Dag).nodes = d.nodes ++ [_] from rfl,
      List.map_append, List.getElem?_append_left (by rw [List.length_map]; exact hi)]

theorem addNode_WF {d : Dag} (h : WFDag d) (n : GoNode) : WFDag (addNode d n).1 := by
  rcases addNode_split d n with ⟨heq, _, _⟩ | ⟨heq, _⟩
  · rw [show (addNode d n).1 = d from congrArg Prod.fst heq]
    exact h
  · rw [show (addNode d n).1 =
      { nodes := d.nodes ++ [{ name := n.name, hash := n.hash, children := [] }] }
      from congrArg Prod.fst heq]
    intro m hm c hc
    rw [show ({ nodes := d.nodes ++ [_] } : Dag).nodes = d.nodes ++ [_] from rfl] at hm ⊢
    rw [List.length_append]
    rcases List.mem_append.mp hm with hml | hmr
    · exact Nat.lt_of_lt_of_le (h m hml c hc) (Nat.le_add_right _ _)
    · rw [List.mem_singleton] at hmr
      rw [hmr] at hc
      cases hc

theorem addNode_nodup {d : Dag} (h : HashesNodup d) (n : GoNode) :
    HashesNodup (addNode d n).1 := by
  rcases addNode_split d n with ⟨heq, _, _⟩ | ⟨heq, hnotin⟩
  · rw [show (addNode d n).1 = d from congrArg Prod.fst heq]
    exact h
  · rw [show (addNode d n).1 =
      { nodes := d.nodes ++ [{ name := n.name, hash := n.hash, children := [] }] }
      from congrArg Prod.fst heq]
    show (((d.nodes ++ [_]).map DagNode.hash)).Nodup
    rw [List.map_append]
    rw [List.nodup_append]
    refine ⟨h, List.nodup_singleton _, ?_⟩
    intro a ha hb
    rw [show List.map DagNode.hash [{ name := n.name, hash := n.hash, children := [] }] =
      [n.hash] from rfl, List.mem_singleton] at hb
    rw [hb] at ha
    exact hnotin ha

theorem addNode_acyclic {d : Dag} (h : Acyclic d) (n : GoNode) : Acyclic (addNode d n).1 := by
  intro ⟨a, b, hb, hr⟩
  exact h ⟨a, b, addNode_childrenOf d n a ▸ hb,
    reach_mono_children (fun i => addNode_childrenOf d n i) hr⟩

theorem set_self_of_getElem {α : Type} {l : List α} {i : Nat} {a : α}
    (h : l[i]? = some a) : l.set i a = l := by
  have hi : i < l.length := (List.getElem?_eq_some.mp h).1
  apply List.ext_getElem?
  intro j
  by_cases hij : j = i
  · rw [hij, List.getElem?_set_self hi, h]
  · rw [List.getElem?_set_ne (fun he => hij he.symm)]

theorem setChildren_nodes {d : Dag} {i : Nat} {m : DagNode} (hm : d.nodes[i]? = some m)
    (cs : List Nat) :
    (setChildren d i cs).nodes = d.nodes.set i { m with children := cs } := by
  unfold setChildren
  rw [hm]

theorem setChildren_length (d : Dag) (i : Nat) (cs : List Nat) :
    (setChildren d i cs).nodes.length = d.nodes.length := by
  unfold setChildren
  rcases hm : d.nodes[i]? with _ | m
  · rfl
  · show (d.nodes.set i _).length = _
    rw [List.length_set]

theorem setChildren_childrenOf_self {d : Dag} {i : Nat} (hi : i < d.nodes.length)
    (cs : List Nat) : childrenOf (setChildren d i cs) i = cs := by
  rcases hm : d.nodes[i]? with _ | m
  · rw [List.getElem?_eq_none_iff] at hm
    omega
  · show (match (setChildren d i cs).nodes[i]? with | some n => n.children | none => []) = cs
    rw [setChildren_nodes hm, List.getElem?_set_self hi]

theorem setChildren_childrenOf_ne {d : Dag} {i j : Nat} (hij : j ≠ i) (cs : List Nat) :
    childrenOf (setChildren d i cs) j = childrenOf d j := by
  rcases hm : d.nodes[i]? with _ | m
  · rw [show setChildren d i cs = d from by unfold setChildren; rw [hm]]
  · show (match (setChildren d i cs).nodes[j]? with | some n => n.children | none => []) =
      (match d.nodes[j]? with | some n => n.children | none => [])
    rw [setChildren_nodes hm, List.getElem?_set_ne (fun he => hij he.symm)]

theorem setChildren_hashes (d : Dag) (i : Nat) (cs : List Nat) :
    (setChildren d i cs).nodes.map DagNode.hash = d.nodes.map DagNode.hash := by
  rcases hm : d.nodes[i]? with _ | m
  · rw [show setChildren d i cs = d from by unfold setChildren; rw [hm]]
  · rw [setChildren_nodes hm, List.map_set]
    apply set_self_of_getElem
    rw [List.getElem?_map, hm]
    rfl

theorem dfsFold_eq_foldl (recur : Nat → List Nat → Bool × List Nat) (cs v : List Nat) :
    dfsFold recur cs v = cs.foldl (dfsStep recur) (false, v) := rfl

theorem foldl_dfsStep_true (recur : Nat → List Nat → Bool × List Nat) :
    ∀ (cs v : List Nat), cs.foldl (dfsStep recur) (true, v) = (true, v) := by
  intro cs
  induction cs with
  | nil =>
    intro v
    rfl
  | cons c cs ih =>
    intro v
    exact ih v

theorem dfsFold_cons (recur : Nat → List Nat → Bool × List Nat) (c : Nat)
    (cs v : List Nat) :
    dfsFold recur (c :: cs) v =
      if c ∈ v then dfsFold recur cs v
      else
        match recur c v with
        | (true, w) => (true, w)
        | (false, w) => dfsFold recur cs w := by
  rw [dfsFold_eq_foldl]
  show List.foldl (dfsStep recur) (dfsStep recur (false, v) c) cs = _
  by_cases h : c ∈ v
  · rw [show dfsStep recur (false, v) c = (false, v) from by
      show (if c ∈ v then ((false, v) : Bool × List Nat) else recur c v) = (false, v)
      rw [if_pos h], if_pos h, dfsFold_eq_foldl]
  · rw [show dfsStep recur (false, v) c = recur c v from by
      show (if c ∈ v then ((false, v) : Bool × List Nat) else recur c v) = recur c v
      rw [if_neg h], if_neg h]
    rcases hr : recur c v with ⟨b, w⟩
    rcases b with _ | _
    · rfl
    · exact foldl_dfsStep_true recur cs w

theorem dfs_succ (d : Dag) (fuel src dst : Nat) (visited : List Nat) :
    dfs d (fuel + 1) src dst visited =
      if src = dst then (true, visited)
      else dfsFold (fun c v => dfs d fuel c dst v) (childrenOf d src) (src :: visited) := rfl

theorem dfsFold_true_mem {recur : Nat → List Nat → Bool × List Nat} :
    ∀ (cs v : List Nat), (dfsFold recur cs v).1 = true →
      ∃ c ∈ cs, ∃ w, (recur c w).1 = true := by
  intro cs
  induction cs with
  | nil =>
    intro v h
    cases h
  | cons c cs ih =>
    intro v h
    rw [dfsFold_cons] at h
    by_cases hc : c ∈ v
    · rw [if_pos hc] at h
      obtain ⟨a, ha, hw⟩ := ih v h
      exact ⟨a, List.mem_cons_of_mem _ ha, hw⟩
    · rw [if_neg hc] at h
      rcases hr : recur c v with ⟨b, w⟩
      rw [hr] at h
      rcases b with _ | _
      · obtain ⟨a, ha, hw⟩ := ih w h
        exact ⟨a, List.mem_cons_of_mem _ ha, hw⟩
      · exact ⟨c, List.mem_cons_self _ _, v, by rw [hr]⟩

theorem dfs_sound (d : Dag) :
    ∀ (fuel src dst : Nat) (visited : List Nat),
      (dfs d fuel src dst visited).1 = true → Reach d src dst := by
  intro fuel
  induction fuel with
  | zero =>
    intro src dst v h
    cases h
  | succ fuel ih =>
    intro src dst v h
    rw [dfs_succ] at h
    by_cases hsd : src = dst
    · rw [hsd]
      exact Reach.refl dst
    · rw [if_neg hsd] at h
      obtain ⟨c, hc, w, hw⟩ := dfsFold_true_mem _ _ h
      exact Reach.step hc (ih c dst w hw)

theorem dfsFold_mono {recur : Nat → List Nat → Bool × List Nat}
    (hrec : ∀ c v, v ⊆ (recur c v).2) :
    ∀ (cs v : List Nat), v ⊆ (dfsFold recur cs v).2 := by
  intro cs
  induction cs with
  | nil =>
    intro v
    exact fun x hx => hx
  | cons c cs ih =>
    intro v
    rw [dfsFold_cons]
    by_cases hc : c ∈ v
    · rw [if_pos hc]
      exact ih v
    · rw [if_neg hc]
      rcases hr : recur c v with ⟨b, w⟩
      have hvw : v ⊆ w := by
        have h0 := hrec c v
        rw [hr] at h0
        exact h0
      rcases b with _ | _
      · exact hvw.trans (ih w)
      · exact hvw

theorem dfs_mono (d : Dag) :
    ∀ (fuel src dst : Nat) (visited : List Nat),
      visited ⊆ (dfs d fuel src dst visited).2 := by
  intro fuel
  induction fuel with
  | zero =>
    intro src dst v
    exact fun x hx => hx
  | succ fuel ih =>
    intro src dst v
    rw [dfs_succ]
    by_cases hsd : src = dst
    · rw [if_pos hsd]
      exact fun x hx => hx
    · rw [if_neg hsd]
      exact (List.subset_cons_self _ _).trans (dfsFold_mono (fun c w => ih c dst w) _ _)

theorem freshCount_mono {d : Dag} {v w : List Nat} (h : v ⊆ w) :
    freshCount d w ≤ freshCount d v := by
  unfold freshCount
  refine List.Sublist.length_le (List.monotone_filter_right _ ?_)
  intro a ha
  rw [decide_eq_true_iff] at ha ⊢
  exact fun hv => ha (h hv)

theorem freshCount_lt {d : Dag} {src : Nat} {visited : List Nat}
    (hs : src < d.nodes.length) (hv : src ∉ visited) :
    freshCount d (src :: visited) < freshCount d visited := by
  unfold freshCount
  have hL : (List.range d.nodes.length).filter (fun i => decide (i ∉ src :: visited)) =
      ((List.range d.nodes.length).filter (fun i => decide (i ∉ visited))).filter
        (fun i => i != src) := by
    rw [List.filter_filter]
    apply List.filter_congr
    intro a _
    by_cases h1 : a = src
    · subst h1
      simp
    · by_cases h2 : a ∈ visited <;> simp [h1, h2]
  have hnd : (((List.range d.nodes.length).filter
      (fun i => decide (i ∉ visited)))).Nodup :=
    (List.nodup_range _).filter _
  have hmem : src ∈ (List.range d.nodes.length).filter (fun i => decide (i ∉ visited)) := by
    rw [List.mem_filter]
    exact ⟨List.mem_range.mpr hs, by simpa using hv⟩
  rw [hL, ← hnd.erase_eq_filter src, List.length_erase_of_mem hmem]
  have hpos := List.length_pos.mpr (List.ne_nil_of_mem hmem)
  omega

theorem childrenOf_lt {d : Dag} (hwf : WFDag d) (i : Nat) :
    ∀ c ∈ childrenOf d i, c < d.nodes.length := by
  intro c hc
  unfold childrenOf at hc
  rcases hm : d.nodes[i]? with _ | m
  · rw [hm] at hc
    cases hc
  · rw [hm] at hc
    exact hwf m (List.getElem?_mem hm) c hc

theorem dfs_false_closed {d : Dag} (hwf : WFDag d) (dst : Nat) :
    ∀ (fuel src : Nat) (visited : List Nat),
      src < d.nodes.length → src ∉ visited → freshCount d visited < fuel →
      (dfs d fuel src dst visited).1 = false →
      src ∈ (dfs d fuel src dst visited).2 ∧
      (∀ x ∈ (dfs d fuel src dst visited).2, x ∉ visited →
        childrenOf d x ⊆ (dfs d fuel src dst visited).2 ∧ x ≠ dst) := by
  intro fuel
  induction fuel with
  | zero =>
    intro src visited _ _ hf _
    exact absurd hf (Nat.not_lt_zero _)
  | succ fuel ih =>
    intro src visited hs hv hf hfalse
    rw [dfs_succ] at hfalse ⊢
    by_cases hsd : src = dst
    · rw [if_pos hsd] at hfalse
      cases hfalse
    · rw [if_neg hsd] at hfalse ⊢
      have hfold : ∀ (cs : List Nat), cs ⊆ childrenOf d src →
          ∀ (w : List Nat), src :: visited ⊆ w → freshCount d w < fuel →
          (∀ x ∈ w, x ∉ src :: visited → childrenOf d x ⊆ w ∧ x ≠ dst) →
          (dfsFold (fun c v => dfs d fuel c dst v) cs w).1 = false →
          w ⊆ (dfsFold (fun c v => dfs d fuel c dst v) cs w).2 ∧
          (∀ c ∈ cs, c ∈ (dfsFold (fun c v => dfs d fuel c dst v) cs w).2) ∧
          (∀ x ∈ (dfsFold (fun c v => dfs d fuel c dst v) cs w).2, x ∉ src :: visited →
            childrenOf d x ⊆ (dfsFold (fun c v => dfs d fuel c dst v) cs w).2 ∧
            x ≠ dst) := by
        intro cs
        induction cs with
        | nil =>
          intro _ w _ _ hQ _
          exact ⟨fun x hx => hx, fun c hc => absurd hc (List.not_mem_nil c), hQ⟩
        | cons c cs ihc =>
          intro hcs w hw hfw hQ h
          rw [dfsFold_cons] at h ⊢
          by_cases hcw : c ∈ w
          · rw [if_pos hcw] at h ⊢
            obtain ⟨h1, h2, h3⟩ :=
              ihc (fun a ha => hcs (List.mem_cons_of_mem _ ha)) w hw hfw hQ h
            refine ⟨h1, ?_, h3⟩
            intro a ha
            rcases List.mem_cons.mp ha with rfl | ha2
            · exact h1 hcw
            · exact h2 a ha2
          · rw [if_neg hcw] at h ⊢
            have hclt : c < d.nodes.length :=
              childrenOf_lt hwf src c (hcs (List.mem_cons_self _ _))
            rcases hr : dfs d fuel c dst w with ⟨b, w2⟩
            rw [hr] at h
            rcases b with _ | _
            · have hmono : w ⊆ w2 := by
                have h0 := dfs_mono d fuel c dst w
                rw [hr] at h0
                exact h0
              have hinner := ih c w hclt hcw hfw
              rw [hr] at hinner
              obtain ⟨hcw2, hQ2⟩ := hinner (by rfl)
              have hQ3 : ∀ x ∈ w2, x ∉ src :: visited → childrenOf d x ⊆ w2 ∧ x ≠ dst := by
                intro x hx hxs
                by_cases hxw : x ∈ w
                · obtain ⟨hsub, hne⟩ := hQ x hxw hxs
                  exact ⟨hsub.trans hmono, hne⟩
                · exact hQ2 x hx hxw
              obtain ⟨H1, H2, H3⟩ :=
                ihc (fun a ha => hcs (List.mem_cons_of_mem _ ha)) w2 (hw.trans hmono)
                  (Nat.lt_of_le_of_lt (freshCount_mono hmono) hfw) hQ3 h
              refine ⟨hmono.trans H1, ?_, H3⟩
              intro a ha
              rcases List.mem_cons.mp ha with rfl | ha2
              · exact H1 hcw2
              · exact H2 a ha2
            · cases h
      have hstart : freshCount d (src :: visited) < fuel := by
        have h1 := freshCount_lt hs hv
        omega
      obtain ⟨W1, W2, W3⟩ := hfold (childrenOf d src) (fun a ha => ha) (src :: visited)
        (fun a ha => ha) hstart (fun x hx hxs => absurd hx hxs) hfalse
      refine ⟨W1 (List.mem_cons_self _ _), ?_⟩
      intro x hx hxv
      by_cases hxsrc : x = src
      · subst hxsrc
        exact ⟨fun c hc => W2 c hc, hsd⟩
      · exact W3 x hx (by
          intro hmem
          rcases List.mem_cons.mp hmem with h1 | h2
          · exact hxsrc h1
          · exact hxv h2)

theorem hasPath_complete {d : Dag} (hwf : WFDag d) {src dst : Nat}
    (hs : src < d.nodes.length) (hr : Reach d src dst) : hasPath d src dst = true := by
  by_contra hb
  rw [Bool.not_eq_true] at hb
  unfold hasPath at hb
  have hf : freshCount d [] < d.nodes.length + 1 := by
    unfold freshCount
    rw [List.filter_eq_self.mpr (fun a _ => by simp), List.length_range]
    omega
  obtain ⟨hsrc, hQ⟩ :=
    dfs_false_closed hwf dst (d.nodes.length + 1) src [] hs (List.not_mem_nil src) hf hb
  have key : ∀ x y, Reach d x y → y = dst →
      x ∈ (dfs d (d.nodes.length + 1) src dst []).2 → False := by
    intro x y hreach
    induction hreach with
    | refl n =>
      intro heq hmem
      exact (hQ n hmem (List.not_mem_nil n)).2 heq
    | step hb2 _ ih2 =>
      intro heq hmem
      exact ih2 heq ((hQ _ hmem (List.not_mem_nil _)).1 hb2)
  exact key src dst hr rfl hsrc

theorem AddEdge_eq (d : Dag) (p c : GoNode) :
    AddEdge d p c =
      if childId d p c ∈ childrenOf (edgeDag d p c) (parentId d p c) then
        (edgeDag d p c, none)
      else if hasPath (edgeDag d p c) (childId d p c) (parentId d p c) then
        (edgeDag d p c,
          some (DagError.cyclicDependency (nameOf (edgeDag d p c) (parentId d p c))
            (nameOf (edgeDag d p c) (childId d p c))))
      else
        (setChildren (edgeDag d p c) (parentId d p c)
          (childrenOf (edgeDag d p c) (parentId d p c) ++ [childId d p c]), none) := rfl

theorem parentId_lt (d : Dag) (p c : GoNode) :
    parentId d p c < (edgeDag d p c).nodes.length :=
  Nat.lt_of_lt_of_le (addNode_id_lt d p) (addNode_len_le _ c)

theorem childId_lt (d : Dag) (p c : GoNode) :
    childId d p c < (edgeDag d p c).nodes.length :=
  addNode_id_lt _ c

theorem edgeDag_inv {d : Dag} (h : DagInv d) (p c : GoNode) : DagInv (edgeDag d p c) :=
  ⟨addNode_WF (addNode_WF h.1 p) c, addNode_acyclic (addNode_acyclic h.2.1 p) c,
    addNode_nodup (addNode_nodup h.2.2 p) c⟩

theorem edgeDag_hash_parent (d : Dag) (p c : GoNode) :
    ((edgeDag d p c).nodes.map DagNode.hash)[parentId d p c]? = some p.hash := by
  show (((addNode (addNode d p).1 c).1.nodes.map DagNode.hash))[(addNode d p).2]? = _
  rw [addNode_hash_keep c (addNode_id_lt d p)]
  exact addNode_hash_at d p

theorem edgeDag_hash_child (d : Dag) (p c : GoNode) :
    ((edgeDag d p c).nodes.map DagNode.hash)[childId d p c]? = some c.hash :=
  addNode_hash_at _ c

theorem reach_setChildren_split {d2 : Dag} {pid cid : Nat}
    (hpid : pid < d2.nodes.length) :
    ∀ {x y : Nat}, Reach (setChildren d2 pid (childrenOf d2 pid ++ [cid])) x y →
      Reach d2 x y ∨ (Reach d2 x pid ∧ Reach d2 cid y) := by
  intro x y hr
  induction hr with
  | refl n => exact Or.inl (Reach.refl n)
  | step hb hr2 ih =>
    rename_i a b y2
    by_cases hap : a = pid
    · rw [hap, setChildren_childrenOf_self hpid] at hb
      rcases List.mem_append.mp hb with hbL | hbR
      · rcases ih with hby | ⟨hbp, hcy⟩
        · exact Or.inl (Reach.step (show b ∈ childrenOf d2 a from by rw [hap]; exact hbL) hby)
        · exact Or.inr ⟨show Reach d2 a pid from by rw [hap]; exact Reach.refl pid, hcy⟩
      · rw [List.mem_singleton] at hbR
        rcases ih with hby | ⟨hbp, hcy⟩
        · exact Or.inr ⟨show Reach d2 a pid from by rw [hap]; exact Reach.refl pid,
            hbR ▸ hby⟩
        · exact Or.inr ⟨show Reach d2 a pid from by rw [hap]; exact Reach.refl pid, hcy⟩
    · rw [setChildren_childrenOf_ne hap] at hb
      rcases ih with hby | ⟨hbp, hcy⟩
      · exact Or.inl (Reach.step hb hby)
      · exact Or.inr ⟨Reach.step hb hbp, hcy⟩

theorem setChildren_WF {d2 : Dag} (hwf : WFDag d2) {i : Nat} {cs : List Nat}
    (hcs : ∀ x ∈ cs, x < d2.nodes.length) : WFDag (setChildren d2 i cs) := by
  intro m hm c hc
  rw [setChildren_length]
  rcases hmi : d2.nodes[i]? with _ | n
  · rw [show setChildren d2 i cs = d2 from by unfold setChildren; rw [hmi]] at hm
    exact hwf m hm c hc
  · rw [setChildren_nodes hmi] at hm
    rcases List.mem_or_eq_of_mem_set hm with hm2 | hm2
    · exact hwf m hm2 c hc
    · rw [hm2] at hc
      exact hcs c hc

theorem AddEdge_inv {d : Dag} (h : DagInv d) (p c : GoNode) : DagInv (AddEdge d p c).1 := by
  have h2 := edgeDag_inv h p c
  rw [AddEdge_eq]
  by_cases hdup : childId d p c ∈ childrenOf (edgeDag d p c) (parentId d p c)
  · rw [if_pos hdup]
    exact h2
  · rw [if_neg hdup]
    by_cases hpath : hasPath (edgeDag d p c) (childId d p c) (parentId d p c) = true
    · rw [if_pos hpath]
      exact h2
    · rw [if_neg hpath]
      have hnr : ¬ Reach (edgeDag d p c) (childId d p c) (parentId d p c) := by
        intro hre
        exact hpath (hasPath_complete h2.1 (childId_lt d p c) hre)
      refine ⟨?_, ?_, ?_⟩
      · apply setChildren_WF h2.1
        intro x hx
        rcases List.mem_append.mp hx with h1 | h1
        · exact childrenOf_lt h2.1 _ x h1
        · rw [List.mem_singleton] at h1
          rw [h1]
          exact childId_lt d p c
      · intro ⟨a, b, hb, hr⟩
        have hsplit := reach_setChildren_split (parentId_lt d p c) hr
        by_cases hap : a = parentId d p c
        · subst hap
          rw [setChildren_childrenOf_self (parentId_lt d p c)] at hb
          rcases List.mem_append.mp hb with hbL | hbR
          · rcases hsplit with hba | ⟨hbp, hca⟩
            · exact h2.2.1 ⟨parentId d p c, b, hbL, hba⟩
            · exact hnr hca
          · rw [List.mem_singleton] at hbR
            subst hbR
            rcases hsplit with hba | ⟨hbp, hca⟩
            · exact hnr hba
            · exact hnr hca
        · rw [setChildren_childrenOf_ne hap] at hb
          rcases hsplit with hba | ⟨hbp, hca⟩
          · exact h2.2.1 ⟨a, b, hb, hba⟩
          · exact hnr (reach_trans hca (Reach.step hb hbp))
      · show ((setChildren (edgeDag d p c) (parentId d p c) _).nodes.map DagNode.hash).Nodup
        rw [setChildren_hashes]
        exact h2.2.2

theorem AddEdge_dup {d : Dag} {p c : GoNode}
    (hdup : childId d p c ∈ childrenOf (edgeDag d p c) (parentId d p c)) :
    AddEdge d p c = (edgeDag d p c, none) := by
  rw [AddEdge_eq, if_pos hdup]

theorem AddEdge_reject_iff {d : Dag} (h : DagInv d) (p c : GoNode) :
    (AddEdge d p c).2 ≠ none ↔
      Reach (edgeDag d p c) (childId d p c) (parentId d p c) := by
  have h2 := edgeDag_inv h p c
  constructor
  · intro hne
    rw [AddEdge_eq] at hne
    by_cases hdup : childId d p c ∈ childrenOf (edgeDag d p c) (parentId d p c)
    · rw [if_pos hdup] at hne
      exact absurd rfl hne
    · rw [if_neg hdup] at hne
      by_cases hpath : hasPath (edgeDag d p c) (childId d p c) (parentId d p c) = true
      · unfold hasPath at hpath
        exact dfs_sound _ _ _ _ _ hpath
      · rw [if_neg hpath] at hne
        exact absurd rfl hne
  · intro hre
    rw [AddEdge_eq]
    by_cases hdup : childId d p c ∈ childrenOf (edgeDag d p c) (parentId d p c)
    · exact absurd (⟨parentId d p c, childId d p c, hdup, hre⟩ : HasCycle _) h2.2.1
    · rw [if_neg hdup, if_pos (hasPath_complete h2.1 (childId_lt d p c) hre)]
      exact fun hx => Option.noConfusion hx

theorem AddEdge_ok_edge {d : Dag} {p c : GoNode} (hok : (AddEdge d p c).2 = none) :
    childId d p c ∈ childrenOf (AddEdge d p c).1 (parentId d p c) := by
  rw [AddEdge_eq] at hok ⊢
  by_cases hdup : childId d p c ∈ childrenOf (edgeDag d p c) (parentId d p c)
  · rw [if_pos hdup] at hok ⊢
    exact hdup
  · rw [if_neg hdup] at hok ⊢
    by_cases hpath : hasPath (edgeDag d p c) (childId d p c) (parentId d p c) = true
    · rw [if_pos hpath] at hok
      exact Option.noConfusion hok
    · rw [if_neg hpath] at hok ⊢
      rw [setChildren_childrenOf_self (parentId_lt d p c)]
      exact List.mem_append.mpr (Or.inr (List.mem_singleton.mpr rfl))

theorem AddEdge_hashes (d : Dag) (p c : GoNode) :
    (AddEdge d p c).1.nodes.map DagNode.hash =
      (edgeDag d p c).nodes.map DagNode.hash := by
  rw [AddEdge_eq]
  by_cases hdup : childId d p c ∈ childrenOf (edgeDag d p c) (parentId d p c)
  · rw [if_pos hdup]
  · rw [if_neg hdup]
    by_cases hpath : hasPath (edgeDag d p c) (childId d p c) (parentId d p c) = true
    · rw [if_pos hpath]
    · rw [if_neg hpath]
      exact setChildren_hashes _ _ _

theorem AddEdge_length (d : Dag) (p c : GoNode) :
    (AddEdge d p c).1.nodes.length = (edgeDag d p c).nodes.length := by
  have h := congrArg List.length (AddEdge_hashes d p c)
  rw [List.length_map, List.length_map] at h
  exact h

theorem AddEdge_pair {d : Dag} (hinv : DagInv d) {A B : GoNode} (hAB : A.hash ≠ B.hash)
    (hok : (AddEdge d A B).2 = none) :
    AddEdge (AddEdge d A B).1 B A =
      ((AddEdge d A B).1,
        some (DagError.cyclicDependency (nameOf (AddEdge d A B).1 (childId d A B))
          (nameOf (AddEdge d A B).1 (parentId d A B)))) := by
  have hinv2 := AddEdge_inv hinv A B
  have hedge := AddEdge_ok_edge hok
  have hhp : ((AddEdge d A B).1.nodes.map DagNode.hash)[parentId d A B]? = some A.hash := by
    rw [AddEdge_hashes]
    exact edgeDag_hash_parent d A B
  have hhc : ((AddEdge d A B).1.nodes.map DagNode.hash)[childId d A B]? = some B.hash := by
    rw [AddEdge_hashes]
    exact edgeDag_hash_child d A B
  have hpidlt : parentId d A B < (AddEdge d A B).1.nodes.length := by
    rw [AddEdge_length]
    exact parentId_lt d A B
  have haB : addNode (AddEdge d A B).1 B = ((AddEdge d A B).1, childId d A B) :=
    addNode_eq_found (findIdx?_map_hash hinv2.2.2 hhc)
  have haA : addNode (AddEdge d A B).1 A = ((AddEdge d A B).1, parentId d A B) :=
    addNode_eq_found (findIdx?_map_hash hinv2.2.2 hhp)
  have hED : edgeDag (AddEdge d A B).1 B A = (AddEdge d A B).1 := by
    show (addNode (addNode (AddEdge d A B).1 B).1 A).1 = _
    rw [haB]
    show (addNode (AddEdge d A B).1 A).1 = _
    rw [haA]
  have hPID : parentId (AddEdge d A B).1 B A = childId d A B := by
    show (addNode (AddEdge d A B).1 B).2 = _
    rw [haB]
  have hCID : childId (AddEdge d A B).1 B A = parentId d A B := by
    show (addNode (addNode (AddEdge d A B).1 B).1 A).2 = _
    rw [haB]
    show (addNode (AddEdge d A B).1 A).2 = _
    rw [haA]
  rw [AddEdge_eq, hED, hPID, hCID]
  have hreach : Reach (AddEdge d A B).1 (parentId d A B) (childId d A B) :=
    Reach.step hedge (Reach.refl _)
  have hndup : parentId d A B ∉ childrenOf (AddEdge d A B).1 (childId d A B) := by
    intro hmem
    exact hinv2.2.1 ⟨childId d A B, parentId d A B, hmem, hreach⟩
  rw [if_neg hndup, if_pos (hasPath_complete hinv2.1 hpidlt hreach)]

theorem addChainLoop_cons_eq (d : Dag) (p n : GoNode) (rest : List GoNode) :
    addChainLoop d p (n :: rest) =
      match AddEdge (addNode (addNode d p).1 n).1 p n with
      | (d3, none) => addChainLoop d3 n rest
      | (d3, some e) => (d3, some e) := rfl

theorem addChainLoop_inv :
    ∀ (ns : List GoNode) (d : Dag) (p : GoNode), DagInv d →
      DagInv (addChainLoop d p ns).1 := by
  intro ns
  induction ns with
  | nil =>
    intro d p h
    exact h
  | cons n rest ih =>
    intro d p h
    rw [addChainLoop_cons_eq]
    have h2 : DagInv (addNode (addNode d p).1 n).1 :=
      ⟨addNode_WF (addNode_WF h.1 p) n, addNode_acyclic (addNode_acyclic h.2.1 p) n,
        addNode_nodup (addNode_nodup h.2.2 p) n⟩
    have h3 := AddEdge_inv h2 p n
    rcases he : AddEdge (addNode (addNode d p).1 n).1 p n with ⟨d3, oe⟩
    rw [he] at h3
    rcases oe with _ | e
    · exact ih d3 n h3
    · exact h3

theorem AddChain_inv : ∀ (ns : List GoNode) (d : Dag), DagInv d →
    DagInv (AddChain d ns).1 := by
  intro ns d h
  match ns with
  | [] => exact h
  | [n] => exact ⟨addNode_WF h.1 n, addNode_acyclic h.2.1 n, addNode_nodup h.2.2 n⟩
  | p :: n :: rest => exact addChainLoop_inv (n :: rest) d p h

theorem AddEdges_cons_eq (d : Dag) (e : GoNode × GoNode)
    (rest : List (GoNode × GoNode)) :
    AddEdges d (e :: rest) =
      match AddEdge d e.1 e.2 with
      | (d1, none) => AddEdges d1 rest
      | (d1, some err) => (d1, some err) := rfl

theorem AddEdges_inv : ∀ (es : List (GoNode × GoNode)) (d : Dag), DagInv d →
    DagInv (AddEdges d es).1 := by
  intro es
  induction es with
  | nil =>
    intro d h
    exact h
  | cons e rest ih =>
    intro d h
    rw [AddEdges_cons_eq]
    have h2 := AddEdge_inv h e.1 e.2
    rcases he : AddEdge d e.1 e.2 with ⟨d1, oe⟩
    rw [he] at h2
    rcases oe with _ | err
    · exact ih d1 h2
    · exact h2

theorem applyOp_inv {d : Dag} (h : DagInv d) (op : DagOp) : DagInv (applyOp d op) := by
  rcases op with ⟨p, c⟩ | ns | es
  · exact AddEdge_inv h p c
  · exact AddChain_inv ns d h
  · exact AddEdges_inv es d h

theorem applyOps_inv : ∀ (ops : List DagOp) (d : Dag), DagInv d →
    DagInv (applyOps d ops) := by
  intro ops
  induction ops with
  | nil =>
    intro d h
    exact h
  | cons op rest ih =>
    intro d h
    exact ih (applyOp d op) (applyOp_inv h op)

theorem emptyDag_inv : DagInv emptyDag := by
  refine ⟨?_, ?_, ?_⟩
  · intro m hm c hc
    cases hm
  · intro ⟨a, b, hb, _⟩
    have hz : childrenOf emptyDag a = [] := by
      unfold childrenOf
      rw [List.getElem?_eq_none (Nat.zero_le a)]
    rw [hz] at hb
    cases hb
  · exact List.nodup_nil

/-- C3: `AddEdge` rejects exactly the edges whose child already reaches
the parent in the graph with both endpoints inserted (self-edges
included), a duplicate edge is a no-op returning no error, after a
successful `AddEdge(A,B)` the reversed `AddEdge(B,A)` fails with a
cyclic-dependency error and leaves the graph unchanged, and every graph
built by any sequence of `AddEdge`/`AddChain`/`AddEdges` calls from the
empty graph is acyclic. -/
theorem c3_cycle_rejection :
    (∀ ops : List DagOp, Acyclic (applyOps emptyDag ops)) ∧
    (∀ (d : Dag) (p c : GoNode),
      childId d p c ∈ childrenOf (edgeDag d p c) (parentId d p c) →
      AddEdge d p c = (edgeDag d p c, none)) ∧
    (∀ (d : Dag) (p c : GoNode), DagInv d →
      ((AddEdge d p c).2 ≠ none ↔
        Reach (edgeDag d p c) (childId d p c) (parentId d p c))) ∧
    (∀ (d : Dag) (A B : GoNode), DagInv d → A.hash ≠ B.hash →
      (AddEdge d A B).2 = none →
      AddEdge (AddEdge d A B).1 B A =
        ((AddEdge d A B).1,
          some (DagError.cyclicDependency (nameOf (AddEdge d A B).1 (childId d A B))
            (nameOf (AddEdge d A B).1 (parentId d A B))))) := by
  refine ⟨?_, ?_, ?_, ?_⟩
  · intro ops
    exact (applyOps_inv ops emptyDag emptyDag_inv).2.1
  · intro d p c hdup
    exact AddEdge_dup hdup
  · intro d p c h
    exact AddEdge_reject_iff h p c
  · intro d A B h hAB hok
    exact AddEdge_pair h hAB hok

/-- C3 witness: the empty graph plus the edge A→B is acyclic, and the
reversed edge is rejected as a cyclic dependency without changing the
graph. -/
theorem c3_cycle_rejection_witness :
    Acyclic (applyOps emptyDag [DagOp.edge c3A c3B]) ∧
    AddEdge (AddEdge emptyDag c3A c3B).1 c3B c3A =
      ((AddEdge emptyDag c3A c3B).1,
        some (DagError.cyclicDependency
          (nameOf (AddEdge emptyDag c3A c3B).1 (childId emptyDag c3A c3B))
          (nameOf (AddEdge emptyDag c3A c3B).1 (parentId emptyDag c3A c3B)))) := by
  refine ⟨c3_cycle_rejection.1 [DagOp.edge c3A c3B], ?_⟩
  exact c3_cycle_rejection.2.2.2 emptyDag c3A c3B emptyDag_inv (by decide) (by decide)

end W2A
